import Mathlib

/-!
Verification of the jj-starship core: the bounded ancestor-bookmark search and
the deterministic prompt renderer.

The development is a shallow embedding of `src/jj.rs` and `src/output.rs`.
Commit identifiers are modelled as `Nat`.  The jj library (`jj_lib`) is an
external collaborator; its read-only view (local bookmarks, remote bookmarks,
tags, commit store) is modelled as plain data, and the functions of the
repository are translated over that data.

Naming: Lean identifiers mirror the Rust names.  A few identifiers are renamed
because the verification toolchain restricts certain suffixes:
`show_prefix` is rendered as `show_pre`, `strip_bookmark_prefix` as
`strip_bookmark_prefixes`, and the method `Config::strip_prefix` as
`Config.stripPre`.
-/

namespace JJS

/-! ## Data model of the repository view (external collaborator, see spec §2-§3) -/

/-- A bookmark/tag target, mirroring jj's `RefTarget`: absent, a single normal
commit, or a conflicted set of commits. -/
inductive RefTarget where
  | absent : RefTarget
  | normal : Nat → RefTarget
  | conflicted : List Nat → RefTarget
deriving DecidableEq, Repr

/-- Mirrors `RefTarget::as_normal`: the commit id if the target is a single
normal commit. -/
def RefTarget.as_normal : RefTarget → Option Nat
  | RefTarget.normal c => some c
  | _ => none

/-- One remote bookmark entry: bookmark name, remote name, and its target. -/
structure RemoteBookmark where
  name : String
  remote : String
  target : RefTarget
deriving DecidableEq, Repr

/-- The read-only view of repository references.  Local bookmarks are a
name-keyed association list (a name points to one target commit); remote
bookmarks and tags as in jj's `View`. -/
structure View where
  localBookmarks : List (String × Nat)
  remoteBookmarks : List RemoteBookmark
  tags : List (String × RefTarget)
deriving Repr

/-- Mirrors `view.local_bookmarks_for_commit(c)`: the names of local bookmarks
whose target is `c`. -/
def localBookmarksFor (v : View) (c : Nat) : List String :=
  (v.localBookmarks.filter (fun p => p.2 == c)).map (fun p => p.1)

/-- Mirrors `view.get_local_bookmark(name)`: the target of the named local
bookmark, or absent. -/
def getLocalBookmark (v : View) (name : String) : RefTarget :=
  match v.localBookmarks.find? (fun p => p.1 == name) with
  | some p => RefTarget.normal p.2
  | none => RefTarget.absent

/-- A stored commit: parent ids, description, canonical change-id string (the
reverse-hex encoding performed by `jj_lib` is abstracted away), and the
conflict flag. -/
structure Commit where
  parentIds : List Nat
  description : String
  changeIdStr : String
  hasConflict : Bool
deriving Repr

/-- The read-only repository state handed to `collect`: the commit store, the
view, the working-copy commit id, and the two `jj_lib` query results that
`collect` consumes (`resolve_change_id` and
`shortest_unique_change_id_prefix_len`). -/
structure RepoState where
  store : Nat → Commit
  view : View
  wcId : Nat
  resolvedChange : Option (List Nat)
  uniquePrefixLen : Option Nat

/-- Parent lookup through the store, as performed by
`repo.store().get_commit(id)` followed by `parent_ids()`. -/
def RepoState.parentsOf (st : RepoState) (c : Nat) : List Nat :=
  (st.store c).parentIds

/-! ## `find_immutable_heads` (src/jj.rs lines 58-100) -/

/-- Insert into a hash set modelled as a duplicate-free list. -/
def hsInsert (s : List Nat) (c : Nat) : List Nat :=
  if c ∈ s then s else c :: s

/-- Mirrors `find_immutable_heads`: trunk bookmarks on origin/upstream, remote
bookmarks with no local counterpart (both skipping the pass-through remote
"git"), and tag targets. -/
def find_immutable_heads (v : View) : List Nat :=
  let s := v.remoteBookmarks.foldl
    (fun s rb =>
      if rb.remote == "git" then s
      else
        let is_trunk :=
          (rb.remote == "origin" || rb.remote == "upstream") &&
          (rb.name == "main" || rb.name == "master" || rb.name == "trunk")
        let is_untracked := (getLocalBookmark v rb.name) == RefTarget.absent
        if is_trunk || is_untracked then
          match rb.target.as_normal with
          | some id => hsInsert s id
          | none => s
        else s)
    []
  v.tags.foldl
    (fun s t =>
      match t.2.as_normal with
      | some id => hsInsert s id
      | none => s)
    s

/-! ## The BFS of `find_ancestor_bookmarks` (src/jj.rs lines 102-169)

The Rust loop pops a `(commit, depth)` pair from the front of a FIFO queue,
prunes on `depth > max_depth`, skips visited commits, records the local
bookmarks of the commit into a first-insertion-wins map, stops at immutable
heads, and otherwise enqueues the parents at `depth + 1`.

The loop always terminates because all pushes strictly descend the bounded
potential `bfsPot` below.  The embedding makes the loop a structurally
recursive function on a fuel argument and instantiates the fuel with
`bfsPot queue + 1`, which is proved sufficient (`bfsGo_completes`): the run
always ends with an empty queue, exactly like the Rust loop. -/

/-- Mirrors `bookmarks_with_distances.entry(name).or_insert(depth)`: record a
name at a depth only if the name has no entry yet.  The map is kept in
insertion order; the iteration order of the Rust `HashMap` is modelled
separately (see `collect`). -/
def orInsert (m : List (String × Nat)) (n : String) (d : Nat) : List (String × Nat) :=
  if m.any (fun e => e.1 == n) then m else m ++ [(n, d)]

/-- Record all bookmark names of the current commit at the current depth,
first insertion wins (the `for` loop over `local_bookmarks_for_commit`). -/
def recordAll (m : List (String × Nat)) (ns : List String) (d : Nat) :
    List (String × Nat) :=
  ns.foldl (fun m n => orInsert m n d) m

/-- Work bound for the subtree below one commit up to a remaining depth. -/
def bfsWork (g : Nat → List Nat) (c : Nat) : Nat → Nat
  | 0 => 0
  | r + 1 => ((g c).map (fun p => 1 + bfsWork g p r)).sum

/-- Potential of a queue: every pop strictly decreases it, so it bounds the
number of loop iterations. -/
def bfsPot (g : Nat → List Nat) (maxD : Nat) (q : List (Nat × Nat)) : Nat :=
  (q.map (fun e => 1 + bfsWork g e.1 (maxD - e.2))).sum

/-- Result of the BFS loop: the remaining queue (always `[]` with sufficient
fuel), the visited set (as an insertion list) and the bookmark map in
insertion order. -/
structure BfsOut where
  queue : List (Nat × Nat)
  visited : List Nat
  marks : List (String × Nat)
deriving Repr

/-- The loop body of `find_ancestor_bookmarks`, one iteration per fuel unit.
Each branch mirrors the Rust `while let` body in order: depth pruning,
visited-set skip, bookmark recording, immutable-head barrier, parent
enqueueing when `depth < max_depth`. -/
def bfsGo (g : Nat → List Nat) (v : View) (immut : List Nat) (maxD : Nat) :
    Nat → List (Nat × Nat) → List Nat → List (String × Nat) → BfsOut
  | _, [], vis, mk => ⟨[], vis, mk⟩
  | 0, q, vis, mk => ⟨q, vis, mk⟩
  | fuel + 1, (c, d) :: rest, vis, mk =>
    if maxD < d then bfsGo g v immut maxD fuel rest vis mk
    else if c ∈ vis then bfsGo g v immut maxD fuel rest vis mk
    else
      let vis' := c :: vis
      let mk' := recordAll mk (localBookmarksFor v c) d
      if c ∈ immut then bfsGo g v immut maxD fuel rest vis' mk'
      else if d < maxD then
        bfsGo g v immut maxD fuel (rest ++ (g c).map (fun p => (p, d + 1))) vis' mk'
      else bfsGo g v immut maxD fuel rest vis' mk'

/-- The initial queue: the working-copy commit's parents at depth 1. -/
def initQueue (st : RepoState) : List (Nat × Nat) :=
  (st.parentsOf st.wcId).map (fun p => (p, 1))

/-- The complete BFS run of `find_ancestor_bookmarks` on a repository state. -/
def bfsRun (st : RepoState) (maxD : Nat) : BfsOut :=
  let g := st.parentsOf
  let immut := find_immutable_heads st.view
  let q := initQueue st
  bfsGo g st.view immut maxD (bfsPot g maxD q + 1) q [] []

/-- The contents of `bookmarks_with_distances` after the BFS, in insertion
order. -/
def ancestorMarks (st : RepoState) (maxD : Nat) : List (String × Nat) :=
  (bfsRun st maxD).marks

/-! ## The final sort of `find_ancestor_bookmarks` (src/jj.rs lines 165-168)

`result.sort_by_key(|(_, distance)| *distance)` is a stable sort by distance;
it is modelled by a stable insertion sort over the same key order. -/

/-- Comparison by distance used by `sort_by_key`. -/
def distLE (a b : String × Nat) : Prop := a.2 ≤ b.2

instance : DecidableRel distLE := fun a b => inferInstanceAs (Decidable (a.2 ≤ b.2))

instance : IsTotal (String × Nat) distLE := ⟨fun a b => Nat.le_total a.2 b.2⟩

instance : IsTrans (String × Nat) distLE := ⟨fun _ _ _ h1 h2 => Nat.le_trans h1 h2⟩

/-- Stable sort by non-decreasing distance. -/
def sortByDist (l : List (String × Nat)) : List (String × Nat) :=
  l.insertionSort distLE

/-- Mirrors `find_ancestor_bookmarks`: the BFS map converted to a vector and
sorted by distance.  `iter` stands for the iteration order in which
`HashMap::into_iter` yields the map's entries; the Rust iteration order is
unspecified, so theorems quantify over permutations `iter` of
`ancestorMarks st maxD`. -/
def find_ancestor_bookmarks (iter : List (String × Nat)) : List (String × Nat) :=
  sortByDist iter

/-! ## `collect` (src/jj.rs lines 171-278) -/

/-- The snapshot struct `JjInfo` of src/jj.rs. -/
structure JjInfo where
  change_id : String
  change_id_prefix_len : Nat
  bookmarks : List (String × Nat)
  empty_desc : Bool
  conflict : Bool
  divergent : Bool
  has_remote : Bool
  is_synced : Bool
deriving Repr, DecidableEq

/-- Character-level translation of Rust `str::trim`: drop leading and trailing
whitespace characters (`Char.isWhitespace` stands for the whitespace class). -/
def rustTrim (s : String) : List Char :=
  ((s.data.dropWhile Char.isWhitespace).reverse.dropWhile Char.isWhitespace).reverse

/-- The remote-scan loop of `collect` (src/jj.rs lines 252-263) over the
remote bookmarks matching the first bookmark's name: skip the pass-through
remote "git", set `has_remote` on a real remote, and break with
`is_synced = true` when a remote target equals the local target.  Returns
`(has_remote, is_synced)` as left by the loop. -/
def syncLoop (bm : String) (localTarget : RefTarget) :
    List RemoteBookmark → Bool → Bool × Bool
  | [], hr => (hr, false)
  | rb :: rest, hr =>
    if rb.name == bm then
      if rb.remote == "git" then syncLoop bm localTarget rest hr
      else if rb.target == localTarget then (true, true)
      else syncLoop bm localTarget rest true
    else syncLoop bm localTarget rest hr

/-- The direct (distance 0) bookmarks of the working-copy commit
(src/jj.rs lines 227-231). -/
def directBookmarks (st : RepoState) : List (String × Nat) :=
  (localBookmarksFor st.view st.wcId).map (fun n => (n, 0))

/-- The remote-sync computation of `collect` (src/jj.rs lines 240-266): empty
bookmark list gives `(false, true)`; otherwise the remote bookmarks matching
the first bookmark's name are scanned by `syncLoop` and `is_synced` is forced
true when no real remote was found. -/
def remoteSync (v : View) (bookmarks : List (String × Nat)) : Bool × Bool :=
  match bookmarks with
  | [] => (false, true)
  | (bm, _) :: _ =>
    let localTarget := getLocalBookmark v bm
    let r := syncLoop bm localTarget v.remoteBookmarks false
    (r.1, r.2 || !r.1)

/-- Mirrors `collect` (the fallible loading of workspace/store is the external
collaborator; the claims concern the snapshots produced on success).
`iter` is the `HashMap` iteration order of the ancestor-bookmark map, an
arbitrary permutation of `ancestorMarks st ancestor_depth` (the Rust
`HashMap::into_iter` order is unspecified). -/
def collect (st : RepoState) (id_length ancestor_depth : Nat)
    (iter : List (String × Nat)) : JjInfo :=
  let commit := st.store st.wcId
  let change_id := commit.changeIdStr.take id_length
  let change_id_prefix_len :=
    min (st.uniquePrefixLen.getD id_length) change_id.length
  let empty_desc := (rustTrim commit.description).isEmpty
  let conflict := commit.hasConflict
  let divergent :=
    match st.resolvedChange with
    | some commits => decide (1 < commits.length)
    | none => false
  let direct := directBookmarks st
  let bookmarks :=
    if 0 < ancestor_depth then direct ++ find_ancestor_bookmarks iter else direct
  let hs := remoteSync st.view bookmarks
  { change_id := change_id
    change_id_prefix_len := change_id_prefix_len
    bookmarks := bookmarks
    empty_desc := empty_desc
    conflict := conflict
    divergent := divergent
    has_remote := hs.1
    is_synced := hs.2 }

/-! ## Rendering configuration (modelled from the spec)

The modules `config.rs` and `color.rs` are not part of src/ (only their
callers and the renderer tests are), so the configuration data and the two
helper methods are modelled from the spec and validated below against the
renderer tests that are in src/output.rs. -/

/-- Modelled from the spec: the per-model display flag sextuple of config.rs
(field `show_prefix` of the source appears here as `show_pre`). -/
structure DisplayConfig where
  show_pre : Bool
  show_name : Bool
  show_id : Bool
  show_status : Bool
  show_color : Bool
  show_prefix_color : Bool
deriving Repr, DecidableEq

/-- Modelled from the spec: the rendering configuration of config.rs consumed
by `format_jj` (truncation width, bookmark display limit, ordered
strip-prefix list, symbol, display flags). -/
structure Config where
  truncate_name : Nat
  bookmarks_display_limit : Nat
  strip_bookmark_prefixes : List String
  jj_symbol : String
  jj_display : DisplayConfig
deriving Repr

/-- Modelled from the spec: `Config::strip_prefix` of config.rs — remove the
first matching configured literal prefix, checked in configured order; the
name is unchanged when none matches. -/
def Config.stripPre (c : Config) (name : String) : String :=
  match c.strip_bookmark_prefixes.find? (fun p => p.data.isPrefixOf name.data) with
  | some p => String.mk (name.data.drop p.data.length)
  | none => name

/-- Modelled from the spec: `Config::truncate` of config.rs — when the width
is non-zero and the name is longer, truncate and append one ellipsis
character; width 0 disables truncation.  The exact cut is fixed by the
renderer tests in src/output.rs (`test_jj_format_truncated` expects
`"very…"` for width 5 and `test_jj_format_strip_bookmark_prefix_with_truncate`
expects `"very-long…"` for width 10): the name is cut to `width - 1`
characters and the ellipsis is appended, so the visible length is exactly
`width` — not the `width + 1` stated in the spec text. -/
def Config.truncate (c : Config) (s : String) : String :=
  if c.truncate_name != 0 && c.truncate_name < s.length then
    (String.mk (s.data.take (c.truncate_name - 1))).push '…'
  else s

/-- Modelled from the spec: the ANSI color start codes and the universal reset
code of color.rs.  The claims do not depend on the concrete escape strings. -/
def RESET : String := "\x1b[0m"

/-- Modelled from the spec: blue color start code. -/
def BLUE : String := "\x1b[34m"

/-- Modelled from the spec: purple color start code. -/
def PURPLE : String := "\x1b[35m"

/-- Modelled from the spec: green color start code. -/
def GREEN : String := "\x1b[32m"

/-- Modelled from the spec: red color start code. -/
def RED : String := "\x1b[31m"

/-- Modelled from the spec: bright magenta color start code. -/
def BRIGHT_MAGENTA : String := "\x1b[95m"

/-- Modelled from the spec: bright black (gray) color start code. -/
def BRIGHT_BLACK : String := "\x1b[90m"

/-! ## The renderer `format_jj` (src/output.rs lines 14-125) -/

/-- Mirrors `format_segment`: wrap a text in a color start code and the reset
code when color is enabled. -/
def format_segment (text : String) (color : String) (show_color : Bool) : String :=
  if show_color then color ++ text ++ RESET else text

/-- Mirrors `format_change_id` (src/output.rs lines 24-36): split the change
id at the unique-prefix length, bright magenta prefix and gray rest.  The
Rust byte slicing is char-level here; the byte-exact variant is
`format_change_id_b` below. -/
def format_change_id (change_id : String) (prefix_len : Nat)
    (show_prefix_color : Bool) : String :=
  if !show_prefix_color then change_id
  else
    let plen := min prefix_len change_id.length
    let pre : String := String.mk (change_id.data.take plen)
    let rest : String := String.mk (change_id.data.drop plen)
    if rest.data.isEmpty then BRIGHT_MAGENTA ++ pre ++ RESET
    else BRIGHT_MAGENTA ++ pre ++ RESET ++ BRIGHT_BLACK ++ rest ++ RESET

/-- One rendered bookmark entry (src/output.rs lines 80-88): strip the first
matching prefix, truncate, and append `~distance` for ancestor bookmarks. -/
def renderBookmark (config : Config) (p : String × Nat) : String :=
  let stripped := config.stripPre p.1
  let truncated := config.truncate stripped
  if 0 < p.2 then truncated ++ "~" ++ toString p.2 else truncated

/-- The list of shown bookmark strings with the display-count limit applied
(src/output.rs lines 71-93): `limit = 0` means unlimited, otherwise the first
`limit` entries are shown and a synthetic `…+hidden` entry is appended when
entries are hidden. -/
def bookmarkStrs (info : JjInfo) (config : Config) : List String :=
  let total := info.bookmarks.length
  let limit := config.bookmarks_display_limit
  let show_count := if limit == 0 then total else min limit total
  let hidden := total - show_count
  let strs := (info.bookmarks.take show_count).map (renderBookmark config)
  if 0 < hidden then strs ++ ["…+" ++ toString hidden] else strs

/-- The bookmark segment text: entries joined by ", " inside parentheses. -/
def bookmarksText (info : JjInfo) (config : Config) : String :=
  "(" ++ String.intercalate ", " (bookmarkStrs info config) ++ ")"

/-- The status characters pushed in fixed order (src/output.rs lines 100-113):
conflict, divergence, empty description, needs-push. -/
def statusChars (info : JjInfo) : String :=
  (if info.conflict then "!" else "") ++
  (if info.divergent then "⇔" else "") ++
  (if info.empty_desc then "?" else "") ++
  (if info.has_remote && !info.is_synced then "⇡" else "")

/-- Output after the prefix segment (src/output.rs lines 46-49). -/
def jjOut1 (config : Config) : String :=
  if config.jj_display.show_pre then
    "on " ++ format_segment config.jj_symbol BLUE config.jj_display.show_color
  else ""

/-- Output after the identity segment (src/output.rs lines 52-63); the change
id is appended directly, with no separator. -/
def jjOut2 (info : JjInfo) (config : Config) : String :=
  jjOut1 config ++
  (if config.jj_display.show_id then
    (if config.jj_display.show_color && config.jj_display.show_prefix_color then
      format_change_id info.change_id info.change_id_prefix_len true
    else
      format_segment info.change_id PURPLE config.jj_display.show_color)
  else "")

/-- Output after the bookmark segment (src/output.rs lines 66-97); one space
separates it from prior non-empty output. -/
def jjOut3 (info : JjInfo) (config : Config) : String :=
  let out := jjOut2 info config
  if config.jj_display.show_name && !info.bookmarks.isEmpty then
    out ++ (if !out.isEmpty then " " else "") ++
      format_segment (bookmarksText info config) GREEN config.jj_display.show_color
  else out

/-- Mirrors `format_jj` (src/output.rs lines 41-125): prefix, identity,
bookmarks, then the bracketed status segment when non-empty. -/
def format_jj (info : JjInfo) (config : Config) : String :=
  let out := jjOut3 info config
  if config.jj_display.show_status then
    let status := statusChars info
    if !status.isEmpty then
      out ++ (if !out.isEmpty then " " else "") ++
        format_segment ("[" ++ status ++ "]") RED config.jj_display.show_color
    else out
  else out

/-! ## Byte-exact model of the identity split (for the panic-freedom claim)

`format_change_id` in src/output.rs slices the change id by BYTE index:
`&change_id[..prefix_len]` with `prefix_len = prefix_len.min(change_id.len())`
(`len()` is the byte length).  A Rust byte-range slice of a `str` panics when
the index is not a character boundary, so the byte-exact model returns
`Option String`, with `none` standing for the panic. -/

/-- UTF-8 byte length of a string. -/
def byteLen (s : String) : Nat :=
  (s.data.map Char.utf8Size).sum

/-- Split a character list at a byte index: `some (pre, rest)` when the index
falls on a character boundary, `none` (the Rust panic) otherwise. -/
def utf8Split : List Char → Nat → Option (List Char × List Char)
  | cs, 0 => some ([], cs)
  | [], _ + 1 => none
  | c :: cs, n + 1 =>
    if c.utf8Size ≤ n + 1 then
      match utf8Split cs (n + 1 - c.utf8Size) with
      | some (a, b) => some (c :: a, b)
      | none => none
    else none

/-- Byte-exact `format_change_id`: `none` models the byte-slice panic on a
non-character-boundary prefix length. -/
def format_change_id_b (change_id : String) (prefix_len : Nat)
    (show_prefix_color : Bool) : Option String :=
  if !show_prefix_color then some change_id
  else
    let plen := min prefix_len (byteLen change_id)
    match utf8Split change_id.data plen with
    | some (a, b) =>
      let pre : String := String.mk a
      let rest : String := String.mk b
      some (if rest.data.isEmpty then BRIGHT_MAGENTA ++ pre ++ RESET
            else BRIGHT_MAGENTA ++ pre ++ RESET ++ BRIGHT_BLACK ++ rest ++ RESET)
    | none => none

/-- Byte-exact output after the identity segment. -/
def jjOut2_b (info : JjInfo) (config : Config) : Option String :=
  if config.jj_display.show_id then
    if config.jj_display.show_color && config.jj_display.show_prefix_color then
      match format_change_id_b info.change_id info.change_id_prefix_len true with
      | some s => some (jjOut1 config ++ s)
      | none => none
    else
      some (jjOut1 config ++
        format_segment info.change_id PURPLE config.jj_display.show_color)
  else some (jjOut1 config)

/-- Byte-exact `format_jj`: `none` models a panic.  Only the identity segment
performs byte slicing; every other operation of the renderer is
panic-free. -/
def format_jj_b (info : JjInfo) (config : Config) : Option String :=
  match jjOut2_b info config with
  | none => none
  | some out2 =>
    let out3 :=
      if config.jj_display.show_name && !info.bookmarks.isEmpty then
        out2 ++ (if !out2.isEmpty then " " else "") ++
          format_segment (bookmarksText info config) GREEN config.jj_display.show_color
      else out2
    some (if config.jj_display.show_status then
      let status := statusChars info
      if !status.isEmpty then
        out3 ++ (if !out3.isEmpty then " " else "") ++
          format_segment ("[" ++ status ++ "]") RED config.jj_display.show_color
      else out3
    else out3)

/-! ## Reachability through the ancestor graph

`Reach g immut roots d c` holds when `c` is reachable from some commit in
`roots` (the working-copy commit's parents, at depth 1) along parent edges
whose intermediate commits are not immutable heads — exactly the paths the
BFS of `find_ancestor_bookmarks` can traverse.  `Link b k c` is the suffix
form used in the completeness proof. -/

/-- Barrier-respecting reachability at a given depth. -/
inductive Reach (g : Nat → List Nat) (immut : List Nat) (roots : List Nat) :
    Nat → Nat → Prop where
  | root {c : Nat} : c ∈ roots → Reach g immut roots 1 c
  | step {d c p : Nat} : Reach g immut roots d c → c ∉ immut → p ∈ g c →
      Reach g immut roots (d + 1) p

/-- Barrier-respecting path of a given length starting at a given commit. -/
inductive Link (g : Nat → List Nat) (immut : List Nat) : Nat → Nat → Nat → Prop where
  | refl {b : Nat} : Link g immut b 0 b
  | step {b p c k : Nat} : b ∉ immut → p ∈ g b → Link g immut p k c →
      Link g immut b (k + 1) c

/-! ## Basic lemmas about the bookmark map and the view -/

theorem mem_localBookmarksFor {v : View} {n : String} {c : Nat} :
    n ∈ localBookmarksFor v c ↔ (n, c) ∈ v.localBookmarks := by
  unfold localBookmarksFor
  simp only [List.mem_map, List.mem_filter]
  constructor
  · rintro ⟨⟨n', c'⟩, ⟨hm, hc⟩, rfl⟩
    simpa using (beq_iff_eq.mp hc ▸ hm)
  · intro h
    exact ⟨(n, c), ⟨h, by simp⟩, rfl⟩

theorem assoc_eq_of_nodup_keys {l : List (String × Nat)} {n : String} {a b : Nat}
    (hnd : (l.map (fun e => e.1)).Nodup) (ha : (n, a) ∈ l) (hb : (n, b) ∈ l) :
    a = b := by
  induction l with
  | nil => cases ha
  | cons x xs ih =>
    simp only [List.map_cons, List.nodup_cons] at hnd
    rcases List.mem_cons.mp ha with ha' | ha'
    · rcases List.mem_cons.mp hb with hb' | hb'
      · have h2 := ha'.trans hb'.symm
        injection h2 with _ h3
      · exact absurd (ha' ▸ List.mem_map_of_mem (fun e => e.1) hb') hnd.1
    · rcases List.mem_cons.mp hb with hb' | hb'
      · exact absurd (hb' ▸ List.mem_map_of_mem (fun e => e.1) ha') hnd.1
      · exact ih hnd.2 ha' hb'

theorem orInsert_superset {m : List (String × Nat)} {n : String} {d : Nat} :
    ∀ e ∈ m, e ∈ orInsert m n d := by
  intro e he
  unfold orInsert
  split
  · exact he
  · exact List.mem_append_left _ he

theorem orInsert_mem {m : List (String × Nat)} {n : String} {d : Nat} :
    ∀ e ∈ orInsert m n d, e ∈ m ∨ e = (n, d) := by
  intro e he
  unfold orInsert at he
  split at he
  · exact Or.inl he
  · rcases List.mem_append.mp he with h | h
    · exact Or.inl h
    · exact Or.inr (List.mem_singleton.mp h)

theorem orInsert_key {m : List (String × Nat)} {n : String} {d : Nat} :
    ∃ d', (n, d') ∈ orInsert m n d ∧ ((n, d') ∈ m ∨ d' = d) := by
  unfold orInsert
  split
  · rename_i h
    rcases List.any_eq_true.mp h with ⟨e, he, heq⟩
    obtain ⟨n', d'⟩ := e
    simp only [beq_iff_eq] at heq
    subst heq
    exact ⟨d', he, Or.inl he⟩
  · exact ⟨d, List.mem_append_right _ (List.mem_singleton.mpr rfl), Or.inr rfl⟩

theorem orInsert_nodup {m : List (String × Nat)} {n : String} {d : Nat}
    (h : (m.map (fun e => e.1)).Nodup) :
    ((orInsert m n d).map (fun e => e.1)).Nodup := by
  unfold orInsert
  split
  · exact h
  · rename_i hany
    have hn : ∀ e ∈ m, e.1 ≠ n := by
      intro e he heq
      exact hany (List.any_eq_true.mpr ⟨e, he, beq_iff_eq.mpr heq⟩)
    simp only [List.map_append, List.map_cons, List.map_nil]
    rw [List.nodup_append]
    refine ⟨h, List.nodup_singleton n, ?_⟩
    intro a ha hb
    rcases List.mem_map.mp ha with ⟨e, he, rfl⟩
    exact hn e he (by simpa using hb)

theorem recordAll_superset {ns : List String} :
    ∀ {m : List (String × Nat)} {d : Nat}, ∀ e ∈ m, e ∈ recordAll m ns d := by
  induction ns with
  | nil => intro m d e he; exact he
  | cons n ns ih =>
    intro m d e he
    exact ih _ (orInsert_superset _ he)

theorem recordAll_mem {ns : List String} :
    ∀ {m : List (String × Nat)} {d : Nat}, ∀ e ∈ recordAll m ns d,
      e ∈ m ∨ (e.1 ∈ ns ∧ e.2 = d) := by
  induction ns with
  | nil => intro m d e he; exact Or.inl he
  | cons n ns ih =>
    intro m d e he
    rcases ih _ he with h | h
    · rcases orInsert_mem _ h with h' | h'
      · exact Or.inl h'
      · exact Or.inr ⟨by simp [h'], by simp [h']⟩
    · exact Or.inr ⟨List.mem_cons_of_mem _ h.1, h.2⟩

theorem recordAll_cons {m : List (String × Nat)} {x : String} {xs : List String}
    {d : Nat} : recordAll m (x :: xs) d = recordAll (orInsert m x d) xs d := rfl

theorem recordAll_key {ns : List String} :
    ∀ {m : List (String × Nat)} {d : Nat}, ∀ n ∈ ns,
      ∃ d', (n, d') ∈ recordAll m ns d ∧ ((n, d') ∈ m ∨ d' = d) := by
  induction ns with
  | nil => intro m d n hn; cases hn
  | cons x xs ih =>
    intro m d n hn
    rw [recordAll_cons]
    rcases List.mem_cons.mp hn with rfl | hn'
    · obtain ⟨d', hd1, hd2⟩ := orInsert_key (m := m) (n := n) (d := d)
      exact ⟨d', recordAll_superset _ hd1, hd2⟩
    · obtain ⟨d', hd1, hd2⟩ := ih n hn'
      refine ⟨d', hd1, ?_⟩
      rcases hd2 with h | h
      · rcases orInsert_mem _ h with h' | h'
        · exact Or.inl h'
        · exact Or.inr (by simpa using congrArg Prod.snd h')
      · exact Or.inr h

theorem recordAll_nodup {ns : List String} :
    ∀ {m : List (String × Nat)} {d : Nat}, (m.map (fun e => e.1)).Nodup →
      ((recordAll m ns d).map (fun e => e.1)).Nodup := by
  induction ns with
  | nil => intro m d h; exact h
  | cons n ns ih => intro m d h; exact ih (orInsert_nodup h)

/-! ## Lemmas about reachability -/

theorem Reach.one_le {g immut roots} {d c : Nat} (h : Reach g immut roots d c) : 1 ≤ d := by
  induction h with
  | root _ => exact le_refl 1
  | step _ _ _ ih => omega

theorem Link.snoc {g immut} {b k c p : Nat} (h : Link g immut b k c)
    (hc : c ∉ immut) (hp : p ∈ g c) : Link g immut b (k + 1) p := by
  induction h with
  | refl => exact Link.step hc hp Link.refl
  | step hb hq _ ih => exact Link.step hb hq (ih hc hp)

theorem Reach.to_link {g immut roots} {d c : Nat} (h : Reach g immut roots d c) :
    ∃ b k, b ∈ roots ∧ Link g immut b k c ∧ k + 1 = d := by
  induction h with
  | root hc => exact ⟨_, 0, hc, Link.refl, rfl⟩
  | step _ him hp ih =>
    obtain ⟨b, k, hb, hlink, hk⟩ := ih
    exact ⟨b, k + 1, hb, hlink.snoc him hp, by omega⟩

theorem Link.to_reach {g immut} {b k c : Nat} (h : Link g immut b k c) :
    ∀ {roots : List Nat}, b ∈ roots → Reach g immut roots (k + 1) c := by
  induction h with
  | refl => intro roots hb; exact Reach.root hb
  | @step b p c k hbi hp _ ih =>
    intro roots hb
    have h1 : Reach g immut (g b) (k + 1) c := ih hp
    have h2 : ∀ dd x, Reach g immut (g b) dd x → Reach g immut roots (dd + 1) x := by
      intro dd x hr
      induction hr with
      | root hx => exact Reach.step (Reach.root hb) hbi hx
      | step _ him hpp ih2 => exact Reach.step ih2 him hpp
    exact h2 (k + 1) c h1

/-! ## Termination of the BFS loop: the potential strictly decreases -/

theorem bfsPot_cons {g : Nat → List Nat} {maxD : Nat} {e : Nat × Nat}
    {q : List (Nat × Nat)} :
    bfsPot g maxD (e :: q) = (1 + bfsWork g e.1 (maxD - e.2)) + bfsPot g maxD q := by
  simp [bfsPot]

theorem bfsPot_append {g : Nat → List Nat} {maxD : Nat} {q r : List (Nat × Nat)} :
    bfsPot g maxD (q ++ r) = bfsPot g maxD q + bfsPot g maxD r := by
  simp [bfsPot]

theorem bfsPot_cons2 {g : Nat → List Nat} {maxD c d : Nat} {q : List (Nat × Nat)} :
    bfsPot g maxD ((c, d) :: q) = (1 + bfsWork g c (maxD - d)) + bfsPot g maxD q :=
  bfsPot_cons

theorem bfsPot_push {g : Nat → List Nat} {maxD c d : Nat} (h : d < maxD) :
    bfsPot g maxD ((g c).map (fun p => (p, d + 1))) = bfsWork g c (maxD - d) := by
  have hmd : maxD - d = (maxD - (d + 1)) + 1 := by omega
  rw [hmd, bfsWork]
  unfold bfsPot
  rw [List.map_map]
  rfl

theorem bfsGo_queue_nil {g : Nat → List Nat} {v : View} {immut : List Nat} {maxD : Nat} :
    ∀ (fuel : Nat) (q : List (Nat × Nat)) (vis : List Nat) (mk : List (String × Nat)),
      bfsPot g maxD q < fuel → (bfsGo g v immut maxD fuel q vis mk).queue = [] := by
  intro fuel
  induction fuel with
  | zero => intro q vis mk h; omega
  | succ fuel ih =>
    intro q vis mk h
    match q with
    | [] => rfl
    | (c, d) :: rest =>
      rw [bfsPot_cons2] at h
      rw [bfsGo]
      split
      · exact ih rest vis mk (by omega)
      · split
        · exact ih rest vis mk (by omega)
        · split
          · exact ih rest _ _ (by omega)
          · split
            · rename_i hdm
              refine ih _ _ _ ?_
              rw [bfsPot_append, bfsPot_push hdm]
              omega
            · exact ih rest _ _ (by omega)

/-! ## The BFS loop invariant

`BfsInv` bundles the facts maintained by every iteration of the loop of
`find_ancestor_bookmarks`: the queue is depth-sorted with spread at most one,
queue entries and visited commits are reachable without crossing immutable
heads, the bookmark map is sound (every entry comes from a visited commit at
its recorded depth) and complete (every barrier-respecting path to a
bookmarked commit is accounted for either by a map entry at no larger depth
or by a pending queue entry). -/

section BfsInvariant

variable (g : Nat → List Nat) (v : View) (immut : List Nat) (maxD : Nat)
variable (roots : List Nat)

/-- The invariant of the BFS loop state. -/
structure BfsInv (q : List (Nat × Nat)) (vis : List Nat)
    (mk : List (String × Nat)) : Prop where
  qSorted : List.Pairwise (fun a b : Nat × Nat => a.2 ≤ b.2) q
  qSpread : ∀ a ∈ q, ∀ b ∈ q, b.2 ≤ a.2 + 1
  qPos : ∀ e ∈ q, 1 ≤ e.2
  qReach : ∀ e ∈ q, Reach g immut roots e.2 e.1
  vReach : ∀ c ∈ vis, ∃ d, d ≤ maxD ∧ Reach g immut roots d c
  mkQ : ∀ e ∈ mk, ∀ f ∈ q, e.2 ≤ f.2
  mkSound : ∀ e ∈ mk, ∃ c, (e.1, c) ∈ v.localBookmarks ∧ c ∈ vis ∧
      Reach g immut roots e.2 c ∧ e.2 ≤ maxD
  vStep : ∀ c ∈ vis, c ∉ immut →
      ((∀ p ∈ g c, p ∈ vis ∨ ∃ δ, (p, δ) ∈ q) ∨ (∀ f ∈ q, maxD ≤ f.2))
  vMark : ∀ c ∈ vis, ∀ n ∈ localBookmarksFor v c, ∃ d', (n, d') ∈ mk
  mkNodup : (mk.map (fun e => e.1)).Nodup
  complete : ∀ dd cc, Reach g immut roots dd cc → dd ≤ maxD →
      ∀ n ∈ localBookmarksFor v cc,
      (∃ d', d' ≤ dd ∧ (n, d') ∈ mk) ∨
      (∃ b δ k, (b, δ) ∈ q ∧ b ∉ vis ∧ Link g immut b k cc ∧ δ + k ≤ dd)

/-- Walking a barrier-respecting path whose start is already visited: the
endpoint's bookmark is in the map with a small depth, or a pending queue
entry covers a suffix of the path. -/
theorem bfs_walk {q : List (Nat × Nat)} {vis : List Nat} {mk : List (String × Nat)}
    (hvStep : ∀ c ∈ vis, c ∉ immut →
      ((∀ p ∈ g c, p ∈ vis ∨ ∃ δ, (p, δ) ∈ q) ∨ (∀ f ∈ q, maxD ≤ f.2)))
    (hvMark : ∀ c ∈ vis, ∀ n ∈ localBookmarksFor v c, ∃ d', (n, d') ∈ mk)
    (hmkQ : ∀ e ∈ mk, ∀ f ∈ q, e.2 ≤ f.2)
    {D dd : Nat} (hQle : ∀ f ∈ q, f.2 ≤ D) (f₀ : Nat × Nat) (hf₀ : f₀ ∈ q)
    (hdd : dd ≤ maxD) :
    ∀ k x cc n, x ∈ vis → Link g immut x k cc → n ∈ localBookmarksFor v cc →
      D + k ≤ dd →
      (∃ d', d' ≤ dd ∧ (n, d') ∈ mk) ∨
      (∃ b δ k₂, (b, δ) ∈ q ∧ b ∉ vis ∧ Link g immut b k₂ cc ∧ δ + k₂ ≤ dd) := by
  intro k
  induction k with
  | zero =>
    intro x cc n hx hlink hn hbudget
    cases hlink
    obtain ⟨d', hd'⟩ := hvMark x hx n hn
    have hb := hmkQ (n, d') hd' f₀ hf₀
    have := hQle f₀ hf₀
    exact Or.inl ⟨d', by omega, hd'⟩
  | succ k ih =>
    intro x cc n hx hlink hn hbudget
    cases hlink with
    | step hxi hp hl2 =>
      rcases hvStep x hx hxi with hpar | hall
      · rcases hpar _ hp with hpv | ⟨δ, hδ⟩
        · exact ih _ cc n hpv hl2 hn (by omega)
        · rename_i p
          by_cases hpv : p ∈ vis
          · exact ih _ cc n hpv hl2 hn (by omega)
          · have := hQle _ hδ
            exact Or.inr ⟨p, δ, k, hδ, hpv, hl2, by omega⟩
      · have h1 := hall f₀ hf₀
        have h2 := hQle f₀ hf₀
        omega

/-- Preservation of the invariant by the depth-pruning branch. -/
theorem inv_prune {c d : Nat} {rest : List (Nat × Nat)} {vis : List Nat}
    {mk : List (String × Nat)}
    (h : BfsInv g v immut maxD roots ((c, d) :: rest) vis mk) (hd : maxD < d) :
    BfsInv g v immut maxD roots rest vis mk := by
  obtain ⟨qS, qSp, qP, qR, vR, mQ, mS, vSt, vM, mN, comp⟩ := h
  have hrest_deep : ∀ f ∈ rest, maxD ≤ f.2 := by
    intro f hf
    have := (List.pairwise_cons.mp qS).1 f hf
    omega
  refine ⟨(List.pairwise_cons.mp qS).2, ?_, ?_, ?_, vR, ?_, mS, ?_, vM, mN, ?_⟩
  · intro a ha b hb
    exact qSp a (List.mem_cons_of_mem _ ha) b (List.mem_cons_of_mem _ hb)
  · intro e he; exact qP e (List.mem_cons_of_mem _ he)
  · intro e he; exact qR e (List.mem_cons_of_mem _ he)
  · intro e he f hf; exact mQ e he f (List.mem_cons_of_mem _ hf)
  · intro c' hc' hci
    exact Or.inr hrest_deep
  · intro dd cc hr hdd n hn
    rcases comp dd cc hr hdd n hn with hl | ⟨b, δ, k, hbq, hbv, hlink, hbud⟩
    · exact Or.inl hl
    · rcases List.mem_cons.mp hbq with heq | hbq'
      · have h1 : δ = d := congrArg Prod.snd heq
        omega
      · exact Or.inr ⟨b, δ, k, hbq', hbv, hlink, hbud⟩

/-- Preservation of the invariant by the visited-skip branch. -/
theorem inv_dup {c d : Nat} {rest : List (Nat × Nat)} {vis : List Nat}
    {mk : List (String × Nat)}
    (h : BfsInv g v immut maxD roots ((c, d) :: rest) vis mk) (hv : c ∈ vis) :
    BfsInv g v immut maxD roots rest vis mk := by
  obtain ⟨qS, qSp, qP, qR, vR, mQ, mS, vSt, vM, mN, comp⟩ := h
  refine ⟨(List.pairwise_cons.mp qS).2, ?_, ?_, ?_, vR, ?_, mS, ?_, vM, mN, ?_⟩
  · intro a ha b hb
    exact qSp a (List.mem_cons_of_mem _ ha) b (List.mem_cons_of_mem _ hb)
  · intro e he; exact qP e (List.mem_cons_of_mem _ he)
  · intro e he; exact qR e (List.mem_cons_of_mem _ he)
  · intro e he f hf; exact mQ e he f (List.mem_cons_of_mem _ hf)
  · intro c' hc' hci
    rcases vSt c' hc' hci with hpar | hall
    · refine Or.inl ?_
      intro p hp
      rcases hpar p hp with hpv | ⟨δ, hδ⟩
      · exact Or.inl hpv
      · rcases List.mem_cons.mp hδ with heq | hδ'
        · have h1 : p = c := congrArg Prod.fst heq
          exact Or.inl (h1 ▸ hv)
        · exact Or.inr ⟨δ, hδ'⟩
    · exact Or.inr (fun f hf => hall f (List.mem_cons_of_mem _ hf))
  · intro dd cc hr hdd n hn
    rcases comp dd cc hr hdd n hn with hl | ⟨b, δ, k, hbq, hbv, hlink, hbud⟩
    · exact Or.inl hl
    · rcases List.mem_cons.mp hbq with heq | hbq'
      · have h1 : b = c := congrArg Prod.fst heq
        exact absurd (h1 ▸ hv) hbv
      · exact Or.inr ⟨b, δ, k, hbq', hbv, hlink, hbud⟩

theorem pairwise_map_const {α : Type} {l : List α} {d : Nat} :
    List.Pairwise (fun a b : α × Nat => a.2 ≤ b.2) (l.map (fun p => (p, d))) := by
  induction l with
  | nil => exact List.Pairwise.nil
  | cons x xs ih =>
    refine List.Pairwise.cons ?_ ih
    intro b hb
    rcases List.mem_map.mp hb with ⟨p, _, rfl⟩
    exact le_refl d

/-- Preservation of the invariant by a processing step that does not enqueue
parents: the commit is an immutable head, or its depth equals the bound. -/
theorem inv_step_norest {c d : Nat} {rest : List (Nat × Nat)} {vis : List Nat}
    {mk : List (String × Nat)}
    (h : BfsInv g v immut maxD roots ((c, d) :: rest) vis mk)
    (hd : d ≤ maxD) (hv : c ∉ vis) (hbar : c ∈ immut ∨ ¬ d < maxD) :
    BfsInv g v immut maxD roots rest (c :: vis)
      (recordAll mk (localBookmarksFor v c) d) := by
  obtain ⟨qS, qSp, qP, qR, vR, mQ, mS, vSt, vM, mN, comp⟩ := h
  have hfront : (c, d) ∈ (c, d) :: rest := List.mem_cons_self _ _
  have hrest_ge : ∀ f ∈ rest, d ≤ f.2 := fun f hf => (List.pairwise_cons.mp qS).1 f hf
  have hreach_c : Reach g immut roots d c := qR (c, d) hfront
  have hδ_min : ∀ δ, (c, δ) ∈ (c, d) :: rest → d ≤ δ := by
    intro δ hδ
    rcases List.mem_cons.mp hδ with heq | hδ'
    · have := congrArg Prod.snd heq; omega
    · exact hrest_ge _ hδ'
  refine ⟨(List.pairwise_cons.mp qS).2, ?_, ?_, ?_, ?_, ?_, ?_, ?_, ?_,
    recordAll_nodup mN, ?_⟩
  · intro a ha b hb
    exact qSp a (List.mem_cons_of_mem _ ha) b (List.mem_cons_of_mem _ hb)
  · intro e he; exact qP e (List.mem_cons_of_mem _ he)
  · intro e he; exact qR e (List.mem_cons_of_mem _ he)
  · intro c' hc'
    rcases List.mem_cons.mp hc' with rfl | hc''
    · exact ⟨d, hd, hreach_c⟩
    · exact vR c' hc''
  · intro e he f hf
    rcases recordAll_mem _ he with hold | ⟨_, he2⟩
    · exact mQ e hold f (List.mem_cons_of_mem _ hf)
    · rw [he2]; exact hrest_ge f hf
  · intro e he
    rcases recordAll_mem _ he with hold | ⟨he1, he2⟩
    · obtain ⟨c₀, h1, h2, h3, h4⟩ := mS e hold
      exact ⟨c₀, h1, List.mem_cons_of_mem _ h2, h3, h4⟩
    · exact ⟨c, mem_localBookmarksFor.mp he1, List.mem_cons_self _ _,
        he2 ▸ hreach_c, he2 ▸ hd⟩
  · intro c' hc' hci
    rcases List.mem_cons.mp hc' with rfl | hc''
    · rcases hbar with hbi | hdm
      · exact absurd hbi hci
      · refine Or.inr ?_
        intro f hf
        have := hrest_ge f hf
        omega
    · rcases vSt c' hc'' hci with hpar | hall
      · refine Or.inl ?_
        intro p hp
        rcases hpar p hp with hpv | ⟨δ, hδ⟩
        · exact Or.inl (List.mem_cons_of_mem _ hpv)
        · rcases List.mem_cons.mp hδ with heq | hδ'
          · have h1 : p = c := congrArg Prod.fst heq
            exact Or.inl (h1 ▸ List.mem_cons_self _ _)
          · exact Or.inr ⟨δ, hδ'⟩
      · exact Or.inr (fun f hf => hall f (List.mem_cons_of_mem _ hf))
  · intro c' hc' n hn
    rcases List.mem_cons.mp hc' with rfl | hc''
    · obtain ⟨d', hd1, _⟩ := recordAll_key n hn
      exact ⟨d', hd1⟩
    · obtain ⟨d', hd'⟩ := vM c' hc'' n hn
      exact ⟨d', recordAll_superset _ hd'⟩
  · intro dd cc hr hdd n hn
    rcases comp dd cc hr hdd n hn with ⟨d', hd1, hd2⟩ | ⟨b, δ, k, hbq, hbv, hlink, hbud⟩
    · exact Or.inl ⟨d', hd1, recordAll_superset _ hd2⟩
    · by_cases hbc : b = c
      · subst hbc
        have hδd : d ≤ δ := hδ_min δ hbq
        match k, hlink with
        | 0, Link.refl =>
          obtain ⟨d', hd1, hd2⟩ := recordAll_key n hn
          have hle : d' ≤ d := by
            rcases hd2 with hin | rfl
            · exact mQ (n, d') hin (b, d) hfront
            · exact le_refl d
          exact Or.inl ⟨d', by omega, hd1⟩
        | k' + 1, Link.step hbi hp hl2 =>
          rcases hbar with hbi' | hdm
          · exact absurd hbi' hbi
          · omega
      · have hbq' : (b, δ) ∈ rest := by
          rcases List.mem_cons.mp hbq with heq | hbq'
          · exact absurd (congrArg Prod.fst heq) hbc
          · exact hbq'
        have hbv' : b ∉ c :: vis := by
          intro hmem
          rcases List.mem_cons.mp hmem with rfl | hmem'
          · exact hbc rfl
          · exact hbv hmem'
        exact Or.inr ⟨b, δ, k, hbq', hbv', hlink, hbud⟩

/-- Preservation of the invariant by a processing step that enqueues the
commit's parents at depth + 1. -/
theorem inv_step_push {c d : Nat} {rest : List (Nat × Nat)} {vis : List Nat}
    {mk : List (String × Nat)}
    (h : BfsInv g v immut maxD roots ((c, d) :: rest) vis mk)
    (hv : c ∉ vis) (hi : c ∉ immut) (hlt : d < maxD) :
    BfsInv g v immut maxD roots (rest ++ (g c).map (fun p => (p, d + 1)))
      (c :: vis) (recordAll mk (localBookmarksFor v c) d) := by
  obtain ⟨qS, qSp, qP, qR, vR, mQ, mS, vSt, vM, mN, comp⟩ := h
  have hd : d ≤ maxD := le_of_lt hlt
  have hfront : (c, d) ∈ (c, d) :: rest := List.mem_cons_self _ _
  have hrest_ge : ∀ f ∈ rest, d ≤ f.2 := fun f hf => (List.pairwise_cons.mp qS).1 f hf
  have hrest_le : ∀ f ∈ rest, f.2 ≤ d + 1 := by
    intro f hf
    exact qSp (c, d) hfront f (List.mem_cons_of_mem _ hf)
  have hreach_c : Reach g immut roots d c := qR (c, d) hfront
  have hδ_min : ∀ δ, (c, δ) ∈ (c, d) :: rest → d ≤ δ := by
    intro δ hδ
    rcases List.mem_cons.mp hδ with heq | hδ'
    · have := congrArg Prod.snd heq; omega
    · exact hrest_ge _ hδ'
  have hQle : ∀ f ∈ rest ++ (g c).map (fun p => (p, d + 1)), f.2 ≤ d + 1 := by
    intro f hf
    rcases List.mem_append.mp hf with hf' | hf'
    · exact hrest_le f hf'
    · rcases List.mem_map.mp hf' with ⟨p, _, rfl⟩
      exact le_refl (d + 1)
  have hvReach : ∀ c' ∈ c :: vis, ∃ dd, dd ≤ maxD ∧ Reach g immut roots dd c' := by
    intro c' hc'
    rcases List.mem_cons.mp hc' with rfl | hc''
    · exact ⟨d, hd, hreach_c⟩
    · exact vR c' hc''
  have hmkQ : ∀ e ∈ recordAll mk (localBookmarksFor v c) d,
      ∀ f ∈ rest ++ (g c).map (fun p => (p, d + 1)), e.2 ≤ f.2 := by
    intro e he f hf
    have he2 : e.2 ≤ d := by
      rcases recordAll_mem _ he with hold | ⟨_, he2⟩
      · exact mQ e hold (c, d) hfront
      · omega
    rcases List.mem_append.mp hf with hf' | hf'
    · have := hrest_ge f hf'; omega
    · rcases List.mem_map.mp hf' with ⟨p, _, rfl⟩
      omega
  have hvStep : ∀ c' ∈ c :: vis, c' ∉ immut →
      ((∀ p ∈ g c', p ∈ c :: vis ∨
        ∃ δ, (p, δ) ∈ rest ++ (g c).map (fun q => (q, d + 1))) ∨
       (∀ f ∈ rest ++ (g c).map (fun q => (q, d + 1)), maxD ≤ f.2)) := by
    intro c' hc' hci
    rcases List.mem_cons.mp hc' with rfl | hc''
    · refine Or.inl ?_
      intro p hp
      exact Or.inr ⟨d + 1, List.mem_append_right _
        (List.mem_map.mpr ⟨p, hp, rfl⟩)⟩
    · rcases vSt c' hc'' hci with hpar | hall
      · refine Or.inl ?_
        intro p hp
        rcases hpar p hp with hpv | ⟨δ, hδ⟩
        · exact Or.inl (List.mem_cons_of_mem _ hpv)
        · rcases List.mem_cons.mp hδ with heq | hδ'
          · have h1 : p = c := congrArg Prod.fst heq
            exact Or.inl (h1 ▸ List.mem_cons_self _ _)
          · exact Or.inr ⟨δ, List.mem_append_left _ hδ'⟩
      · have := hall (c, d) hfront
        omega
  have hvMark : ∀ c' ∈ c :: vis, ∀ n ∈ localBookmarksFor v c',
      ∃ d', (n, d') ∈ recordAll mk (localBookmarksFor v c) d := by
    intro c' hc' n hn
    rcases List.mem_cons.mp hc' with rfl | hc''
    · obtain ⟨d', hd1, _⟩ := recordAll_key n hn
      exact ⟨d', hd1⟩
    · obtain ⟨d', hd'⟩ := vM c' hc'' n hn
      exact ⟨d', recordAll_superset _ hd'⟩
  refine ⟨?_, ?_, ?_, ?_, hvReach, hmkQ, ?_, hvStep, hvMark,
    recordAll_nodup mN, ?_⟩
  · rw [List.pairwise_append]
    refine ⟨(List.pairwise_cons.mp qS).2, pairwise_map_const, ?_⟩
    intro a ha b hb
    rcases List.mem_map.mp hb with ⟨p, _, rfl⟩
    exact hrest_le a ha
  · intro a ha b hb
    rcases List.mem_append.mp hb with hb' | hb'
    · rcases List.mem_append.mp ha with ha' | ha'
      · exact qSp a (List.mem_cons_of_mem _ ha') b (List.mem_cons_of_mem _ hb')
      · rcases List.mem_map.mp ha' with ⟨p, _, rfl⟩
        have := hrest_le b hb'
        simpa using by omega
    · rcases List.mem_map.mp hb' with ⟨p, _, rfl⟩
      rcases List.mem_append.mp ha with ha' | ha'
      · have := hrest_ge a ha'
        simpa using by omega
      · rcases List.mem_map.mp ha' with ⟨p', _, rfl⟩
        simp
  · intro e he
    rcases List.mem_append.mp he with he' | he'
    · exact qP e (List.mem_cons_of_mem _ he')
    · rcases List.mem_map.mp he' with ⟨p, _, rfl⟩
      simp
  · intro e he
    rcases List.mem_append.mp he with he' | he'
    · exact qR e (List.mem_cons_of_mem _ he')
    · rcases List.mem_map.mp he' with ⟨p, hp, rfl⟩
      exact Reach.step hreach_c hi hp
  · intro e he
    rcases recordAll_mem _ he with hold | ⟨he1, he2⟩
    · obtain ⟨c₀, h1, h2, h3, h4⟩ := mS e hold
      exact ⟨c₀, h1, List.mem_cons_of_mem _ h2, h3, h4⟩
    · exact ⟨c, mem_localBookmarksFor.mp he1, List.mem_cons_self _ _,
        he2 ▸ hreach_c, he2 ▸ hd⟩
  · intro dd cc hr hdd n hn
    rcases comp dd cc hr hdd n hn with ⟨d', hd1, hd2⟩ | ⟨b, δ, k, hbq, hbv, hlink, hbud⟩
    · exact Or.inl ⟨d', hd1, recordAll_superset _ hd2⟩
    · by_cases hbc : b = c
      · subst hbc
        have hδd : d ≤ δ := hδ_min δ hbq
        match k, hlink with
        | 0, Link.refl =>
          obtain ⟨d', hd1, hd2⟩ := recordAll_key n hn
          have hle : d' ≤ d := by
            rcases hd2 with hin | rfl
            · exact mQ (n, d') hin (b, d) hfront
            · exact le_refl d
          exact Or.inl ⟨d', by omega, hd1⟩
        | k' + 1, Link.step hbi hp hl2 =>
          rename_i p
          by_cases hpv : p ∈ b :: vis
          · exact bfs_walk g v immut maxD hvStep hvMark hmkQ hQle
              (p, d + 1) (List.mem_append_right _ (List.mem_map.mpr ⟨p, hp, rfl⟩))
              hdd k' p cc n hpv hl2 hn (by omega)
          · exact Or.inr ⟨p, d + 1, k',
              List.mem_append_right _ (List.mem_map.mpr ⟨p, hp, rfl⟩),
              hpv, hl2, by omega⟩
      · have hbq' : (b, δ) ∈ rest := by
          rcases List.mem_cons.mp hbq with heq | hbq'
          · exact absurd (congrArg Prod.fst heq) hbc
          · exact hbq'
        have hbv' : b ∉ c :: vis := by
          intro hmem
          rcases List.mem_cons.mp hmem with rfl | hmem'
          · exact hbc rfl
          · exact hbv hmem'
        exact Or.inr ⟨b, δ, k, List.mem_append_left _ hbq', hbv', hlink, hbud⟩

/-! ### One-step unfolding equations of the loop body -/

theorem bfsGo_succ_prune {fuel c d : Nat} {rest : List (Nat × Nat)} {vis : List Nat}
    {mk : List (String × Nat)} (hd : maxD < d) :
    bfsGo g v immut maxD (fuel + 1) ((c, d) :: rest) vis mk =
      bfsGo g v immut maxD fuel rest vis mk := by
  rw [bfsGo, if_pos hd]

theorem bfsGo_succ_dup {fuel c d : Nat} {rest : List (Nat × Nat)} {vis : List Nat}
    {mk : List (String × Nat)} (hd : ¬ maxD < d) (hv : c ∈ vis) :
    bfsGo g v immut maxD (fuel + 1) ((c, d) :: rest) vis mk =
      bfsGo g v immut maxD fuel rest vis mk := by
  rw [bfsGo, if_neg hd, if_pos hv]

theorem bfsGo_succ_immut {fuel c d : Nat} {rest : List (Nat × Nat)} {vis : List Nat}
    {mk : List (String × Nat)} (hd : ¬ maxD < d) (hv : c ∉ vis) (hi : c ∈ immut) :
    bfsGo g v immut maxD (fuel + 1) ((c, d) :: rest) vis mk =
      bfsGo g v immut maxD fuel rest (c :: vis)
        (recordAll mk (localBookmarksFor v c) d) := by
  rw [bfsGo, if_neg hd, if_neg hv]
  simp only [if_pos hi]

theorem bfsGo_succ_push {fuel c d : Nat} {rest : List (Nat × Nat)} {vis : List Nat}
    {mk : List (String × Nat)} (hd : ¬ maxD < d) (hv : c ∉ vis) (hi : c ∉ immut)
    (hlt : d < maxD) :
    bfsGo g v immut maxD (fuel + 1) ((c, d) :: rest) vis mk =
      bfsGo g v immut maxD fuel (rest ++ (g c).map (fun p => (p, d + 1)))
        (c :: vis) (recordAll mk (localBookmarksFor v c) d) := by
  rw [bfsGo, if_neg hd, if_neg hv]
  simp only [if_neg hi, if_pos hlt]

theorem bfsGo_succ_maxd {fuel c d : Nat} {rest : List (Nat × Nat)} {vis : List Nat}
    {mk : List (String × Nat)} (hd : ¬ maxD < d) (hv : c ∉ vis) (hi : c ∉ immut)
    (hlt : ¬ d < maxD) :
    bfsGo g v immut maxD (fuel + 1) ((c, d) :: rest) vis mk =
      bfsGo g v immut maxD fuel rest (c :: vis)
        (recordAll mk (localBookmarksFor v c) d) := by
  rw [bfsGo, if_neg hd, if_neg hv]
  simp only [if_neg hi, if_neg hlt]

/-! ### The invariant holds at every BFS state -/

theorem bfsGo_inv : ∀ (fuel : Nat) (q : List (Nat × Nat)) (vis : List Nat)
    (mk : List (String × Nat)), BfsInv g v immut maxD roots q vis mk →
    BfsInv g v immut maxD roots (bfsGo g v immut maxD fuel q vis mk).queue
      (bfsGo g v immut maxD fuel q vis mk).visited
      (bfsGo g v immut maxD fuel q vis mk).marks := by
  intro fuel
  induction fuel with
  | zero =>
    intro q vis mk h
    match q with
    | [] => exact h
    | e :: q' => exact h
  | succ fuel ih =>
    intro q vis mk h
    match q with
    | [] => exact h
    | (c, d) :: rest =>
      by_cases hd : maxD < d
      · rw [bfsGo_succ_prune g v immut maxD hd]
        exact ih _ _ _ (inv_prune g v immut maxD roots h hd)
      · by_cases hv : c ∈ vis
        · rw [bfsGo_succ_dup g v immut maxD hd hv]
          exact ih _ _ _ (inv_dup g v immut maxD roots h hv)
        · by_cases hi : c ∈ immut
          · rw [bfsGo_succ_immut g v immut maxD hd hv hi]
            exact ih _ _ _
              (inv_step_norest g v immut maxD roots h (by omega) hv (Or.inl hi))
          · by_cases hlt : d < maxD
            · rw [bfsGo_succ_push g v immut maxD hd hv hi hlt]
              exact ih _ _ _ (inv_step_push g v immut maxD roots h hv hi hlt)
            · rw [bfsGo_succ_maxd g v immut maxD hd hv hi hlt]
              exact ih _ _ _
                (inv_step_norest g v immut maxD roots h (by omega) hv (Or.inr hlt))

/-- The invariant holds initially: the queue is the roots at depth 1, nothing
is visited, the map is empty. -/
theorem bfsInv_init : BfsInv g v immut maxD roots (roots.map (fun p => (p, 1))) [] [] := by
  refine ⟨pairwise_map_const, ?_, ?_, ?_, ?_, ?_, ?_, ?_, ?_, List.nodup_nil, ?_⟩
  · intro a ha b hb
    rcases List.mem_map.mp ha with ⟨p, _, rfl⟩
    rcases List.mem_map.mp hb with ⟨p', _, rfl⟩
    omega
  · intro e he
    rcases List.mem_map.mp he with ⟨p, _, rfl⟩
    exact le_refl 1
  · intro e he
    rcases List.mem_map.mp he with ⟨p, hp, rfl⟩
    exact Reach.root hp
  · intro c hc; exact absurd hc (List.not_mem_nil c)
  · intro e he; exact absurd he (List.not_mem_nil e)
  · intro e he; exact absurd he (List.not_mem_nil e)
  · intro c hc; exact absurd hc (List.not_mem_nil c)
  · intro c hc; exact absurd hc (List.not_mem_nil c)
  · intro dd cc hr _ n _
    obtain ⟨b, k, hb, hlink, hk⟩ := hr.to_link
    exact Or.inr ⟨b, 1, k, List.mem_map.mpr ⟨b, hb, rfl⟩,
      List.not_mem_nil b, hlink, by omega⟩

end BfsInvariant

/-! ### Facts about the completed run -/

theorem bfsRun_queue_nil (st : RepoState) (maxD : Nat) :
    (bfsRun st maxD).queue = [] := by
  unfold bfsRun
  exact bfsGo_queue_nil _ _ _ _ (Nat.lt_succ_self _)

theorem bfsRun_inv (st : RepoState) (maxD : Nat) :
    BfsInv st.parentsOf st.view (find_immutable_heads st.view) maxD
      (st.parentsOf st.wcId) [] (bfsRun st maxD).visited (bfsRun st maxD).marks := by
  have he : bfsRun st maxD =
      bfsGo st.parentsOf st.view (find_immutable_heads st.view) maxD
        (bfsPot st.parentsOf maxD (initQueue st) + 1) (initQueue st) [] [] := rfl
  have h := bfsGo_inv st.parentsOf st.view (find_immutable_heads st.view) maxD
    (st.parentsOf st.wcId) (bfsPot st.parentsOf maxD (initQueue st) + 1)
    (initQueue st) [] []
    (bfsInv_init st.parentsOf st.view (find_immutable_heads st.view) maxD
      (st.parentsOf st.wcId))
  rw [← he] at h
  rw [bfsRun_queue_nil st maxD] at h
  exact h

/-- Soundness of the bookmark map: every entry names a bookmark of a visited
commit, reachable without crossing an immutable head, at the recorded
distance within the bound. -/
theorem ancestorMarks_sound (st : RepoState) (maxD : Nat) :
    ∀ e ∈ ancestorMarks st maxD, ∃ c, (e.1, c) ∈ st.view.localBookmarks ∧
      c ∈ (bfsRun st maxD).visited ∧
      Reach st.parentsOf (find_immutable_heads st.view) (st.parentsOf st.wcId) e.2 c ∧
      1 ≤ e.2 ∧ e.2 ≤ maxD := by
  intro e he
  obtain ⟨c, h1, h2, h3, h4⟩ := (bfsRun_inv st maxD).mkSound e he
  exact ⟨c, h1, h2, h3, h3.one_le, h4⟩

/-- The bookmark map records each name at most once. -/
theorem ancestorMarks_nodup (st : RepoState) (maxD : Nat) :
    ((ancestorMarks st maxD).map (fun e => e.1)).Nodup :=
  (bfsRun_inv st maxD).mkNodup

/-- Completeness/minimality of the bookmark map: a bookmark on a commit that
is reachable within the bound without crossing an immutable head is recorded
at a distance no larger than that of any such path. -/
theorem ancestorMarks_min (st : RepoState) (maxD : Nat) {dd cc : Nat} {n : String}
    (hr : Reach st.parentsOf (find_immutable_heads st.view) (st.parentsOf st.wcId) dd cc)
    (hdd : dd ≤ maxD) (hn : (n, cc) ∈ st.view.localBookmarks) :
    ∃ d', d' ≤ dd ∧ (n, d') ∈ ancestorMarks st maxD := by
  have h := (bfsRun_inv st maxD).complete dd cc hr hdd n (mem_localBookmarksFor.mpr hn)
  rcases h with h | ⟨b, δ, k, hbq, _⟩
  · exact h
  · exact absurd hbq (List.not_mem_nil _)

/-- Every visited commit is reachable within the bound without crossing an
immutable head. -/
theorem bfsRun_visited_reach (st : RepoState) (maxD : Nat) :
    ∀ c ∈ (bfsRun st maxD).visited, ∃ d, d ≤ maxD ∧
      Reach st.parentsOf (find_immutable_heads st.view) (st.parentsOf st.wcId) d c :=
  (bfsRun_inv st maxD).vReach

/-! ## Characterization of the remote-sync scan -/

/-- A remote bookmark is a real remote counterpart of the named bookmark. -/
def rbMatches (bm : String) (rb : RemoteBookmark) : Bool :=
  rb.name == bm && rb.remote != "git"

theorem syncLoop_spec (bm : String) (lt : RefTarget) :
    ∀ (l : List RemoteBookmark) (hr : Bool),
      syncLoop bm lt l hr =
        (hr || l.any (rbMatches bm),
         l.any (fun rb => rbMatches bm rb && rb.target == lt)) := by
  intro l
  induction l with
  | nil => intro hr; simp [syncLoop]
  | cons rb rest ih =>
    intro hr
    by_cases h1 : rb.name == bm
    · by_cases h2 : rb.remote == "git"
      · have hm : rbMatches bm rb = false := by
          simp [rbMatches, h1]
          simpa using h2
        simp [syncLoop, h1, h2, ih, hm]
      · by_cases h3 : rb.target == lt
        · have hm : rbMatches bm rb = true := by
            simp [rbMatches, h1]
            simpa using h2
          simp [syncLoop, h1, h2, h3, hm]
        · have hm : rbMatches bm rb = true := by
            simp [rbMatches, h1]
            simpa using h2
          simp [syncLoop, h1, h2, h3, ih, hm]
    · have hm : rbMatches bm rb = false := by simp [rbMatches, h1]
      simp [syncLoop, h1, ih, hm]

theorem remoteSync_nil (v : View) : remoteSync v [] = (false, true) := rfl

theorem remoteSync_cons (v : View) (bm : String) (d : Nat)
    (rest : List (String × Nat)) :
    ((remoteSync v ((bm, d) :: rest)).1 = true ↔
      ∃ rb ∈ v.remoteBookmarks, rb.name = bm ∧ rb.remote ≠ "git") ∧
    ((remoteSync v ((bm, d) :: rest)).2 = true ↔
      ((∃ rb ∈ v.remoteBookmarks, rb.name = bm ∧ rb.remote ≠ "git" ∧
          rb.target = getLocalBookmark v bm) ∨
       (∀ rb ∈ v.remoteBookmarks, rb.name = bm → rb.remote = "git"))) := by
  have hs := syncLoop_spec bm (getLocalBookmark v bm) v.remoteBookmarks false
  have h1 : (remoteSync v ((bm, d) :: rest)).1 =
      v.remoteBookmarks.any (rbMatches bm) := by
    simp [remoteSync, hs]
  have h2 : (remoteSync v ((bm, d) :: rest)).2 =
      (v.remoteBookmarks.any
          (fun rb => rbMatches bm rb && rb.target == getLocalBookmark v bm) ||
        !(v.remoteBookmarks.any (rbMatches bm))) := by
    simp [remoteSync, hs]
  constructor
  · rw [h1, List.any_eq_true]
    constructor
    · rintro ⟨rb, hrb, hm⟩
      refine ⟨rb, hrb, ?_⟩
      simpa [rbMatches] using hm
    · rintro ⟨rb, hrb, hm⟩
      exact ⟨rb, hrb, by simpa [rbMatches] using hm⟩
  · rw [h2]
    simp only [Bool.or_eq_true, Bool.not_eq_true', List.any_eq_false,
      List.any_eq_true, Bool.and_eq_true]
    constructor
    · rintro (⟨rb, hrb, hm, ht⟩ | hall)
      · have hm' : rb.name = bm ∧ ¬rb.remote = "git" := by simpa [rbMatches] using hm
        exact Or.inl ⟨rb, hrb, hm'.1, hm'.2, by simpa using ht⟩
      · refine Or.inr ?_
        intro rb hrb hname
        have := hall rb hrb
        simp [rbMatches, hname] at this
        simpa using this
    · rintro (⟨rb, hrb, hn, hg, ht⟩ | hall)
      · exact Or.inl ⟨rb, hrb, by simp [rbMatches, hn, hg], by simpa using ht⟩
      · refine Or.inr ?_
        intro rb hrb
        by_cases hn : rb.name = bm
        · simp [rbMatches, hn, hall rb hrb hn]
        · simp [rbMatches, hn]

/-! ## Projections of `collect` -/

theorem collect_bookmarks_eq (st : RepoState) (idl dep : Nat)
    (iter : List (String × Nat)) :
    (collect st idl dep iter).bookmarks =
      directBookmarks st ++ (if 0 < dep then sortByDist iter else []) := by
  by_cases h : 0 < dep <;>
    simp [collect, find_ancestor_bookmarks, h]

theorem collect_has_remote_eq (st : RepoState) (idl dep : Nat)
    (iter : List (String × Nat)) :
    (collect st idl dep iter).has_remote =
      (remoteSync st.view ((collect st idl dep iter).bookmarks)).1 := rfl

theorem collect_is_synced_eq (st : RepoState) (idl dep : Nat)
    (iter : List (String × Nat)) :
    (collect st idl dep iter).is_synced =
      (remoteSync st.view ((collect st idl dep iter).bookmarks)).2 := rfl

theorem collect_empty_desc_eq (st : RepoState) (idl dep : Nat)
    (iter : List (String × Nat)) :
    (collect st idl dep iter).empty_desc =
      (rustTrim (st.store st.wcId).description).isEmpty := rfl

/-! ## The stable sort by distance -/

theorem sortByDist_sorted (l : List (String × Nat)) :
    List.Pairwise (fun a b : String × Nat => a.2 ≤ b.2) (sortByDist l) :=
  List.sorted_insertionSort distLE l

theorem sortByDist_perm (l : List (String × Nat)) : (sortByDist l).Perm l :=
  List.perm_insertionSort distLE l

/-! ## Trim and whitespace -/

theorem rustTrim_empty_iff (s : String) :
    (rustTrim s).isEmpty = true ↔ s.data.all Char.isWhitespace = true := by
  unfold rustTrim
  rw [List.isEmpty_iff]
  rw [List.reverse_eq_nil_iff, List.dropWhile_eq_nil_iff]
  simp only [List.mem_reverse, List.all_eq_true]
  constructor
  · intro h x hx
    have hsplit := List.takeWhile_append_dropWhile (p := Char.isWhitespace) (l := s.data)
    rw [← hsplit] at hx
    rcases List.mem_append.mp hx with h1 | h1
    · exact List.mem_takeWhile_imp h1
    · exact h x h1
  · intro h x hx
    exact h x ((List.dropWhile_sublist _).subset hx)

/-! ## ASCII identity strings agree with the byte-exact renderer -/

theorem sum_utf8_ascii : ∀ (l : List Char), (∀ c ∈ l, c.utf8Size = 1) →
    (l.map Char.utf8Size).sum = l.length := by
  intro l
  induction l with
  | nil => intro _; rfl
  | cons c cs ih =>
    intro h
    simp only [List.map_cons, List.sum_cons, List.length_cons,
      h c (List.mem_cons_self c cs), ih (fun x hx => h x (List.mem_cons_of_mem c hx))]
    omega

theorem byteLen_ascii {s : String} (h : ∀ c ∈ s.data, c.utf8Size = 1) :
    byteLen s = s.length := by
  unfold byteLen
  rw [sum_utf8_ascii s.data h]
  rfl

theorem utf8Split_ascii : ∀ (l : List Char) (n : Nat),
    (∀ c ∈ l, c.utf8Size = 1) → n ≤ l.length →
    utf8Split l n = some (l.take n, l.drop n) := by
  intro l
  induction l with
  | nil =>
    intro n _ hn
    match n, hn with
    | 0, _ => rfl
  | cons c cs ih =>
    intro n h hn
    match n with
    | 0 => rfl
    | n + 1 =>
      have hc : c.utf8Size = 1 := h c (List.mem_cons_self c cs)
      rw [utf8Split]
      rw [if_pos (by omega)]
      have hn' : n ≤ cs.length := by
        simp only [List.length_cons] at hn
        omega
      have hrec := ih n (fun x hx => h x (List.mem_cons_of_mem c hx)) hn'
      have harg : n + 1 - c.utf8Size = n := by omega
      rw [harg, hrec]
      rfl

theorem format_change_id_b_ascii {cid : String} {pl : Nat} {spc : Bool}
    (h : ∀ c ∈ cid.data, c.utf8Size = 1) :
    format_change_id_b cid pl spc = some (format_change_id cid pl spc) := by
  cases spc with
  | false => rfl
  | true =>
    simp only [format_change_id_b, format_change_id, byteLen_ascii h,
      Bool.not_true, Bool.false_eq_true, if_false]
    rw [utf8Split_ascii cid.data (min pl cid.length) h (Nat.min_le_right _ _)]

theorem jjOut2_b_ascii (info : JjInfo) (config : Config)
    (h : (∀ c ∈ info.change_id.data, c.utf8Size = 1) ∨
      (config.jj_display.show_color && config.jj_display.show_prefix_color) = false) :
    jjOut2_b info config = some (jjOut2 info config) := by
  unfold jjOut2_b jjOut2
  by_cases hid : config.jj_display.show_id
  · by_cases hc : (config.jj_display.show_color && config.jj_display.show_prefix_color) = true
    · rcases h with h | h
      · rw [format_change_id_b_ascii h]
        simp [hid, hc]
      · rw [h] at hc; cases hc
    · have hc' : (config.jj_display.show_color && config.jj_display.show_prefix_color) = false :=
        Bool.eq_false_iff.mpr hc
      simp [hid, hc']
  · simp [hid]

theorem format_jj_b_total (info : JjInfo) (config : Config)
    (h : (∀ c ∈ info.change_id.data, c.utf8Size = 1) ∨
      (config.jj_display.show_color && config.jj_display.show_prefix_color) = false) :
    format_jj_b info config = some (format_jj info config) := by
  unfold format_jj_b
  rw [jjOut2_b_ascii info config h]
  rfl

/-! ## First-match semantics of the configured strip-prefix list -/

theorem find_first_match {α : Type} (f : α → Bool) :
    ∀ (l₁ : List α) (p : α) (l₂ : List α), (∀ q ∈ l₁, ¬ f q = true) → f p = true →
      (l₁ ++ p :: l₂).find? f = some p := by
  intro l₁
  induction l₁ with
  | nil =>
    intro p l₂ _ hp
    simp [List.find?_cons, hp]
  | cons q qs ih =>
    intro p l₂ hq hp
    rw [List.cons_append, List.find?_cons_of_neg _ (by
      simpa using hq q (List.mem_cons_self q qs))]
    exact ih p l₂ (fun x hx => hq x (List.mem_cons_of_mem q hx)) hp

theorem String.mk_length (l : List Char) : (String.mk l).length = l.length := rfl

theorem push_length (s : String) (c : Char) : (s.push c).length = s.length + 1 := by
  cases s with
  | mk data => simp [String.push, String.length]

/-! ## Claim theorems -/

/-- C1: For every StatusSnapshot produced by collect, the bookmark list is the
direct (distance-0) bookmarks followed by the ancestor bookmarks sorted by
non-decreasing distance, each name occurs at most once, and each ancestor
bookmark is recorded with the smallest distance at which the search can find
it (no barrier-respecting path within the depth bound to its target commit is
shorter).  Hypotheses: bookmark names are unique in the view, `iter` is the
hash-map iteration order (a permutation of the map contents), and the
working-copy commit is not its own ancestor within the bound. -/
theorem collect_bookmark_order_spec (st : RepoState) (idl dep : Nat)
    (iter : List (String × Nat))
    (hnodup : (st.view.localBookmarks.map (fun p => p.1)).Nodup)
    (hperm : iter.Perm (ancestorMarks st dep))
    (hacyc : ∀ d, d ≤ dep → ¬ Reach st.parentsOf (find_immutable_heads st.view)
        (st.parentsOf st.wcId) d st.wcId) :
    (collect st idl dep iter).bookmarks =
        directBookmarks st ++ (if 0 < dep then sortByDist iter else []) ∧
    (∀ p ∈ directBookmarks st, p.2 = 0) ∧
    (∀ p ∈ (if 0 < dep then sortByDist iter else ([] : List (String × Nat))),
        1 ≤ p.2 ∧ p.2 ≤ dep) ∧
    List.Pairwise (fun a b : String × Nat => a.2 ≤ b.2)
        (if 0 < dep then sortByDist iter else []) ∧
    List.Pairwise (fun a b : String × Nat => a.2 ≤ b.2)
        ((collect st idl dep iter).bookmarks) ∧
    ((collect st idl dep iter).bookmarks.map (fun p => p.1)).Nodup ∧
    (∀ p ∈ (collect st idl dep iter).bookmarks, ∀ c dd,
        (p.1, c) ∈ st.view.localBookmarks →
        Reach st.parentsOf (find_immutable_heads st.view) (st.parentsOf st.wcId) dd c →
        dd ≤ dep → p.2 ≤ dd) := by
  have hb := collect_bookmarks_eq st idl dep iter
  have hanc_mem : ∀ p ∈ sortByDist iter, p ∈ ancestorMarks st dep := by
    intro p hp
    exact hperm.mem_iff.mp ((sortByDist_perm iter).mem_iff.mp hp)
  have hdir0 : ∀ p ∈ directBookmarks st, p.2 = 0 := by
    intro p hp
    rcases List.mem_map.mp hp with ⟨n, _, rfl⟩
    rfl
  have hancite : ∀ p ∈ (if 0 < dep then sortByDist iter else ([] : List (String × Nat))),
      1 ≤ p.2 ∧ p.2 ≤ dep := by
    intro p hp
    by_cases h : 0 < dep
    · rw [if_pos h] at hp
      obtain ⟨c, _, _, _, h1, h4⟩ := ancestorMarks_sound st dep p (hanc_mem p hp)
      exact ⟨h1, h4⟩
    · rw [if_neg h] at hp
      cases hp
  have hsort_ite : List.Pairwise (fun a b : String × Nat => a.2 ≤ b.2)
      (if 0 < dep then sortByDist iter else []) := by
    by_cases h : 0 < dep
    · rw [if_pos h]; exact sortByDist_sorted iter
    · rw [if_neg h]; exact List.Pairwise.nil
  have hall : List.Pairwise (fun a b : String × Nat => a.2 ≤ b.2)
      ((collect st idl dep iter).bookmarks) := by
    rw [hb]
    refine List.pairwise_append.mpr ⟨pairwise_map_const, hsort_ite, ?_⟩
    intro a ha b _
    rw [hdir0 a ha]
    exact Nat.zero_le _
  have hdirnames : (directBookmarks st).map (fun p => p.1) =
      localBookmarksFor st.view st.wcId := by
    unfold directBookmarks
    rw [List.map_map]
    exact List.map_id _
  have hdirnodup : ((directBookmarks st).map (fun p => p.1)).Nodup := by
    rw [hdirnames]
    unfold localBookmarksFor
    exact hnodup.sublist ((List.filter_sublist _).map (fun p : String × Nat => p.1))
  have hancnodup : ((sortByDist iter).map (fun p => p.1)).Nodup := by
    have hp2 : ((sortByDist iter).map (fun p => p.1)).Perm
        ((ancestorMarks st dep).map (fun p => p.1)) :=
      ((sortByDist_perm iter).trans hperm).map _
    exact hp2.nodup_iff.mpr (ancestorMarks_nodup st dep)
  have hdisj : ∀ n, n ∈ (directBookmarks st).map (fun p => p.1) →
      n ∈ (sortByDist iter).map (fun p => p.1) → False := by
    intro n hn1 hn2
    rw [hdirnames] at hn1
    have hview1 : (n, st.wcId) ∈ st.view.localBookmarks := mem_localBookmarksFor.mp hn1
    rcases List.mem_map.mp hn2 with ⟨p, hp, rfl⟩
    obtain ⟨c, hc1, _, hc3, _, hc5⟩ := ancestorMarks_sound st dep p (hanc_mem p hp)
    have heqc : st.wcId = c := assoc_eq_of_nodup_keys hnodup hview1 hc1
    exact hacyc p.2 hc5 (heqc ▸ hc3)
  have hnodupall : ((collect st idl dep iter).bookmarks.map (fun p => p.1)).Nodup := by
    rw [hb]
    by_cases h : 0 < dep
    · rw [if_pos h, List.map_append]
      exact List.nodup_append.mpr ⟨hdirnodup, hancnodup, hdisj⟩
    · rw [if_neg h, List.append_nil]
      exact hdirnodup
  refine ⟨hb, hdir0, hancite, hsort_ite, hall, hnodupall, ?_⟩
  intro p hp c dd hview hreach hdd
  rw [hb] at hp
  rcases List.mem_append.mp hp with hp' | hp'
  · rw [hdir0 p hp']
    exact Nat.zero_le _
  · by_cases h : 0 < dep
    · rw [if_pos h] at hp'
      have hpm : p ∈ ancestorMarks st dep := hanc_mem p hp'
      obtain ⟨d', hd1, hd2⟩ := ancestorMarks_min st dep hreach hdd hview
      have hpp : (p.1, p.2) ∈ ancestorMarks st dep := hpm
      have := assoc_eq_of_nodup_keys (ancestorMarks_nodup st dep) hpp hd2
      omega
    · rw [if_neg h] at hp'
      cases hp'

/-- C2: when a commit of the immutable-head set is dequeued unvisited at a
depth within the bound, the loop records its locally attached bookmark names
at that depth (first insertion wins) and continues with the rest of the queue
— none of its parents are enqueued; consequently every commit the search
ever visits is reachable by a path that crosses no immutable head, so a
commit reachable only through an immutable head is never visited. -/
theorem bfs_immutable_head_barrier (g : Nat → List Nat) (v : View)
    (immut : List Nat) (maxD fuel c d : Nat) (rest : List (Nat × Nat))
    (vis : List Nat) (mk : List (String × Nat))
    (hd : d ≤ maxD) (hv : c ∉ vis) (hi : c ∈ immut) :
    (bfsGo g v immut maxD (fuel + 1) ((c, d) :: rest) vis mk =
      bfsGo g v immut maxD fuel rest (c :: vis)
        (recordAll mk (localBookmarksFor v c) d)) ∧
    (∀ n ∈ localBookmarksFor v c,
      ∃ d', (n, d') ∈ recordAll mk (localBookmarksFor v c) d ∧
        ((n, d') ∈ mk ∨ d' = d)) ∧
    (∀ (st : RepoState) (dep : Nat), ∀ x ∈ (bfsRun st dep).visited,
      ∃ dd, dd ≤ dep ∧
        Reach st.parentsOf (find_immutable_heads st.view) (st.parentsOf st.wcId) dd x) :=
  ⟨bfsGo_succ_immut g v immut maxD (by omega) hv hi,
   fun n hn => recordAll_key n hn,
   fun st dep x hx => bfsRun_visited_reach st dep x hx⟩

/-- C3: `has_remote` and `is_synced` are computed only from the first
bookmark of the combined list: an empty list gives `(false, true)`;
otherwise `has_remote` holds iff the first bookmark has a remote counterpart
on a remote other than "git", and `is_synced` holds iff some such
counterpart's target equals the local target, or no such counterpart exists
at all. -/
theorem collect_remote_sync_spec (st : RepoState) (idl dep : Nat)
    (iter : List (String × Nat)) :
    ((collect st idl dep iter).bookmarks = [] →
      (collect st idl dep iter).has_remote = false ∧
      (collect st idl dep iter).is_synced = true) ∧
    (∀ bm d rest2, (collect st idl dep iter).bookmarks = (bm, d) :: rest2 →
      ((collect st idl dep iter).has_remote = true ↔
        ∃ rb ∈ st.view.remoteBookmarks, rb.name = bm ∧ rb.remote ≠ "git") ∧
      ((collect st idl dep iter).is_synced = true ↔
        ((∃ rb ∈ st.view.remoteBookmarks, rb.name = bm ∧ rb.remote ≠ "git" ∧
            rb.target = getLocalBookmark st.view bm) ∨
         (∀ rb ∈ st.view.remoteBookmarks, rb.name = bm → rb.remote = "git")))) := by
  constructor
  · intro h
    rw [collect_has_remote_eq, collect_is_synced_eq, h]
    exact ⟨rfl, rfl⟩
  · intro bm d rest2 h
    rw [collect_has_remote_eq, collect_is_synced_eq, h]
    exact remoteSync_cons st.view bm d rest2

/-- C4: with a non-zero display limit L and T > L bookmarks, exactly the
first L rendered bookmarks are shown followed by one synthetic `…+hidden`
entry; with T ≤ L or L = 0 all T bookmarks are shown and no marker entry is
appended. -/
theorem bookmark_display_limit_spec (info : JjInfo) (config : Config) :
    (0 < config.bookmarks_display_limit →
      config.bookmarks_display_limit < info.bookmarks.length →
      bookmarkStrs info config =
        (info.bookmarks.take config.bookmarks_display_limit).map
          (renderBookmark config) ++
        ["…+" ++ toString (info.bookmarks.length - config.bookmarks_display_limit)] ∧
      (bookmarkStrs info config).length = config.bookmarks_display_limit + 1) ∧
    ((config.bookmarks_display_limit = 0 ∨
      info.bookmarks.length ≤ config.bookmarks_display_limit) →
      bookmarkStrs info config = info.bookmarks.map (renderBookmark config)) := by
  constructor
  · intro hL hT
    have h0 : (config.bookmarks_display_limit == 0) = false := by
      simp only [beq_eq_false_iff_ne, ne_eq]
      omega
    have hmin : min config.bookmarks_display_limit info.bookmarks.length =
        config.bookmarks_display_limit := Nat.min_eq_left (Nat.le_of_lt hT)
    have hhid : 0 < info.bookmarks.length - config.bookmarks_display_limit := by omega
    constructor
    · unfold bookmarkStrs
      simp only [h0, Bool.false_eq_true, if_false, hmin, if_pos hhid]
    · unfold bookmarkStrs
      simp only [h0, Bool.false_eq_true, if_false, hmin, if_pos hhid]
      rw [List.length_append, List.length_map, List.length_take]
      simp [hmin]
  · intro h
    unfold bookmarkStrs
    rcases h with h0 | hle
    · simp [h0, List.take_length]
    · by_cases h0 : config.bookmarks_display_limit = 0
      · simp [h0, List.take_length]
      · have hb : (config.bookmarks_display_limit == 0) = false := by
          simpa using h0
        have hmin : min config.bookmarks_display_limit info.bookmarks.length =
            info.bookmarks.length := Nat.min_eq_right hle
        have hhid : ¬ 0 < info.bookmarks.length - info.bookmarks.length := by omega
        simp only [hb, Bool.false_eq_true, if_false, hmin, if_neg hhid]
        rw [List.take_length]

/-- C5 (amended): a rendered bookmark name is first stripped of the first
matching configured prefix (checked in configured order, unchanged when none
matches) and then truncated: with a non-zero width `w` and a post-strip
length exceeding `w`, the name is cut to `w - 1` characters and a single
ellipsis character is appended, making the visible length exactly `w` (the
cut is fixed by the renderer tests in src/output.rs); width 0 disables
truncation. -/
theorem strip_then_truncate_spec (config : Config) (name : String) (d : Nat) :
    renderBookmark config (name, d) =
      (if 0 < d then config.truncate (config.stripPre name) ++ "~" ++ toString d
       else config.truncate (config.stripPre name)) ∧
    ((∀ q ∈ config.strip_bookmark_prefixes, ¬ q.data.isPrefixOf name.data = true) →
      config.stripPre name = name) ∧
    (∀ l₁ p l₂, config.strip_bookmark_prefixes = l₁ ++ p :: l₂ →
      (∀ q ∈ l₁, ¬ q.data.isPrefixOf name.data = true) →
      p.data.isPrefixOf name.data = true →
      config.stripPre name = String.mk (name.data.drop p.data.length)) ∧
    (config.truncate_name = 0 →
      config.truncate (config.stripPre name) = config.stripPre name) ∧
    ((config.stripPre name).length ≤ config.truncate_name →
      config.truncate (config.stripPre name) = config.stripPre name) ∧
    (0 < config.truncate_name →
      config.truncate_name < (config.stripPre name).length →
      config.truncate (config.stripPre name) =
        (String.mk ((config.stripPre name).data.take (config.truncate_name - 1))).push '…' ∧
      (config.truncate (config.stripPre name)).length = config.truncate_name) := by
  refine ⟨rfl, ?_, ?_, ?_, ?_, ?_⟩
  · intro h
    unfold Config.stripPre
    rw [List.find?_eq_none.mpr h]
  · intro l₁ p l₂ hsplit h1 hp
    unfold Config.stripPre
    rw [hsplit, find_first_match _ l₁ p l₂ h1 hp]
  · intro h0
    unfold Config.truncate
    simp [h0]
  · intro hle
    unfold Config.truncate
    have hlt : ¬ config.truncate_name < (config.stripPre name).length := by omega
    simp [hlt]
  · intro h1 h2
    have hcond : (config.truncate_name != 0 &&
        decide (config.truncate_name < (config.stripPre name).length)) = true := by
      simp only [Bool.and_eq_true, bne_iff_ne, ne_eq, decide_eq_true_eq]
      omega
    constructor
    · unfold Config.truncate
      rw [if_pos hcond]
    · unfold Config.truncate
      rw [if_pos hcond, push_length, String.mk_length, List.length_take]
      have : (config.stripPre name).data.length = (config.stripPre name).length := rfl
      omega

/-- C6: the status characters appear in the fixed order conflict `!`, then
divergence `⇔`, then empty-description `?`, then needs-push `⇡` (the last
only when `has_remote && !is_synced`), each condition contributing at most
one character; the bracketed status segment is emitted iff `show_status`
holds and at least one condition holds. -/
theorem status_order_spec (info : JjInfo) (config : Config) :
    (statusChars info).data =
      (if info.conflict then ['!'] else []) ++
      (if info.divergent then ['⇔'] else []) ++
      (if info.empty_desc then ['?'] else []) ++
      (if info.has_remote && !info.is_synced then ['⇡'] else []) ∧
    format_jj info config =
      (if config.jj_display.show_status && !(statusChars info).isEmpty then
        jjOut3 info config ++ (if !(jjOut3 info config).isEmpty then " " else "") ++
          format_segment ("[" ++ statusChars info ++ "]") RED
            config.jj_display.show_color
      else jjOut3 info config) := by
  constructor
  · rcases info with ⟨ci, pl, bms, ed, cf, dv, hr, sy⟩
    cases ed <;> cases cf <;> cases dv <;> cases hr <;> cases sy <;> rfl
  · by_cases hst : config.jj_display.show_status
    · by_cases he : (statusChars info).isEmpty
      · simp [format_jj, hst, he]
      · simp [format_jj, hst, he]
    · simp [format_jj, hst]

/-- C7 (amended): the bookmarks segment and the status segment, when
non-empty, are preceded by exactly one space iff the output so far is
non-empty; the identity segment is appended directly after the prefix
segment with no separator (the pattern is `on {symbol}{change_id}`); the
rendered string can therefore end in a space only when the last emitted
segment itself ends in one (for instance the bare prefix with an empty
symbol). -/
theorem segment_spacing_spec (info : JjInfo) (config : Config) :
    jjOut2 info config = jjOut1 config ++
      (if config.jj_display.show_id then
        (if config.jj_display.show_color && config.jj_display.show_prefix_color then
          format_change_id info.change_id info.change_id_prefix_len true
        else format_segment info.change_id PURPLE config.jj_display.show_color)
      else "") ∧
    (config.jj_display.show_name = true → info.bookmarks.isEmpty = false →
      jjOut3 info config = jjOut2 info config ++
        (if !(jjOut2 info config).isEmpty then " " else "") ++
        format_segment (bookmarksText info config) GREEN
          config.jj_display.show_color) ∧
    (config.jj_display.show_name = false ∨ info.bookmarks.isEmpty = true →
      jjOut3 info config = jjOut2 info config) ∧
    (config.jj_display.show_status = true → (statusChars info).isEmpty = false →
      format_jj info config = jjOut3 info config ++
        (if !(jjOut3 info config).isEmpty then " " else "") ++
        format_segment ("[" ++ statusChars info ++ "]") RED
          config.jj_display.show_color) ∧
    (config.jj_display.show_status = false ∨ (statusChars info).isEmpty = true →
      format_jj info config = jjOut3 info config) := by
  refine ⟨rfl, ?_, ?_, ?_, ?_⟩
  · intro h1 h2
    unfold jjOut3
    rw [h1, h2]
    simp
  · intro h
    unfold jjOut3
    rcases h with h | h <;> simp [h]
  · intro h1 h2
    unfold format_jj
    simp [h1, h2]
  · intro h
    unfold format_jj
    rcases h with h | h <;> simp [h]

/-- C8 (amended): the renderer is total — it never panics — whenever the
identity string is ASCII (more generally, whenever the byte index used by
the prefix split lands on a character boundary) or prefix coloring is
disabled; the byte-exact model then agrees with the character-level
renderer.  The unamended claim fails for non-ASCII identity strings: the
prefix split of src/output.rs slices by byte index and panics inside a
multi-byte character (see the counterexample). -/
theorem render_total_spec (info : JjInfo) (config : Config)
    (h : (∀ c ∈ info.change_id.data, c.utf8Size = 1) ∨
      (config.jj_display.show_color && config.jj_display.show_prefix_color) = false) :
    format_jj_b info config = some (format_jj info config) :=
  format_jj_b_total info config h

/-- C9 (amended): the snapshot is deterministic up to the iteration order of
the ancestor-bookmark hash map: for any two iteration orders the bookmark
lists are permutations of each other and all non-bookmark-derived fields
coincide; with equal sorted lists the snapshots and the rendered strings are
identical (rendering itself is a pure function of snapshot and
configuration).  The unamended claim fails because the relative order of
equal-distance ancestor bookmarks depends on the hash-map iteration order,
which Rust leaves unspecified (see the counterexample). -/
theorem collect_deterministic_up_to_ties (st : RepoState) (idl dep : Nat)
    (config : Config) (iter₁ iter₂ : List (String × Nat))
    (h1 : iter₁.Perm (ancestorMarks st dep))
    (h2 : iter₂.Perm (ancestorMarks st dep)) :
    (collect st idl dep iter₁).bookmarks.Perm
      ((collect st idl dep iter₂).bookmarks) ∧
    (collect st idl dep iter₁).change_id = (collect st idl dep iter₂).change_id ∧
    (collect st idl dep iter₁).change_id_prefix_len =
      (collect st idl dep iter₂).change_id_prefix_len ∧
    (collect st idl dep iter₁).empty_desc = (collect st idl dep iter₂).empty_desc ∧
    (collect st idl dep iter₁).conflict = (collect st idl dep iter₂).conflict ∧
    (collect st idl dep iter₁).divergent = (collect st idl dep iter₂).divergent ∧
    (sortByDist iter₁ = sortByDist iter₂ →
      collect st idl dep iter₁ = collect st idl dep iter₂ ∧
      format_jj (collect st idl dep iter₁) config =
        format_jj (collect st idl dep iter₂) config) := by
  refine ⟨?_, rfl, rfl, rfl, rfl, rfl, ?_⟩
  · rw [collect_bookmarks_eq, collect_bookmarks_eq]
    refine List.Perm.append (List.Perm.refl _) ?_
    by_cases h : 0 < dep
    · rw [if_pos h, if_pos h]
      exact ((sortByDist_perm iter₁).trans h1).trans
        (((sortByDist_perm iter₂).trans h2).symm)
    · rw [if_neg h, if_neg h]
  · intro hss
    have hc : collect st idl dep iter₁ = collect st idl dep iter₂ := by
      simp only [collect, find_ancestor_bookmarks, hss]
    exact ⟨hc, congrArg (fun i => format_jj i config) hc⟩

/-- C10: the empty-description flag of a collected snapshot holds exactly
when the working-copy commit's description, after trimming leading and
trailing whitespace, is empty — a description consisting only of whitespace
counts as empty. -/
theorem empty_desc_iff_whitespace (st : RepoState) (idl dep : Nat)
    (iter : List (String × Nat)) :
    (collect st idl dep iter).empty_desc = true ↔
      (st.store st.wcId).description.data.all Char.isWhitespace = true := by
  rw [collect_empty_desc_eq]
  exact rustTrim_empty_iff _

/-! ## Concrete sample states, configurations and snapshots -/

/-- Sample repository for the C1 witness: working copy 0 with parent 1,
bookmark "main" on the working copy and "feat" on its parent. -/
def stA : RepoState :=
  { store := fun c => if c == 0 then ⟨[1], "work", "yzxv1234", false⟩
      else ⟨[], "base", "zzzzzzzz", false⟩,
    view := { localBookmarks := [("main", 0), ("feat", 1)],
              remoteBookmarks := [], tags := [] },
    wcId := 0, resolvedChange := none, uniquePrefixLen := some 4 }

theorem reach_stA : ∀ d c, Reach stA.parentsOf (find_immutable_heads stA.view)
    (stA.parentsOf stA.wcId) d c → c = 1 := by
  intro d c h
  induction h with
  | root hc =>
    have h1 : stA.parentsOf stA.wcId = [1] := rfl
    rw [h1] at hc
    simpa using hc
  | step h2 him hp ih =>
    rw [ih] at hp
    have h1 : stA.parentsOf 1 = [] := rfl
    rw [h1] at hp
    cases hp

/-- C1 witness: the combined bookmark list of the sample repository has
unique names and non-decreasing distances. -/
theorem collect_bookmark_order_witness :
    (stA.view.localBookmarks.map (fun p => p.1)).Nodup ∧
    ((collect stA 8 10 (ancestorMarks stA 10)).bookmarks.map (fun p => p.1)).Nodup ∧
    List.Pairwise (fun a b : String × Nat => a.2 ≤ b.2)
      ((collect stA 8 10 (ancestorMarks stA 10)).bookmarks) := by
  have hacyc : ∀ d, d ≤ 10 → ¬ Reach stA.parentsOf (find_immutable_heads stA.view)
      (stA.parentsOf stA.wcId) d stA.wcId := by
    intro d _ hr
    have h1 := reach_stA d stA.wcId hr
    exact absurd h1 (by decide)
  have h := collect_bookmark_order_spec stA 8 10 (ancestorMarks stA 10)
    (by decide) (List.Perm.refl _) hacyc
  exact ⟨by decide, h.2.2.2.2.2.1, h.2.2.2.2.1⟩

/-- Sample view and graph for the C2 witness: commit 5 is an immutable head
carrying bookmark "x"; its parent 7 exists but must not be enqueued. -/
def vwB : View :=
  { localBookmarks := [("x", 5)], remoteBookmarks := [], tags := [] }

/-- Parent function for the C2 witness. -/
def gB : Nat → List Nat := fun _ => [7]

/-- C2 witness: dequeuing immutable head 5 at depth 1 (bound 3) records its
bookmark and continues with an empty queue — parent 7 is not enqueued. -/
theorem bfs_immutable_barrier_witness :
    bfsGo gB vwB [5] 3 5 [(5, 1)] [] [] =
      bfsGo gB vwB [5] 3 4 [] [5] (recordAll [] (localBookmarksFor vwB 5) 1) :=
  (bfs_immutable_head_barrier gB vwB [5] 3 4 5 1 [] [] [] (by decide) (by decide)
    (by decide)).1

/-- Sample repository for the C3 witness: one direct bookmark "main" with a
synced counterpart on remote "origin". -/
def stC3 : RepoState :=
  { store := fun _ => ⟨[], "msg", "yzxv1234", false⟩,
    view := { localBookmarks := [("main", 0)],
              remoteBookmarks := [⟨"main", "origin", RefTarget.normal 0⟩],
              tags := [] },
    wcId := 0, resolvedChange := none, uniquePrefixLen := some 4 }

/-- C3 witness: the sample snapshot has a real remote and is synced. -/
theorem collect_remote_sync_witness :
    (collect stC3 8 0 []).has_remote = true ∧
    (collect stC3 8 0 []).is_synced = true := by
  have h := (collect_remote_sync_spec stC3 8 0 []).2 "main" 0 [] (by decide)
  refine ⟨h.1.mpr ?_, h.2.mpr (Or.inl ?_)⟩
  · exact ⟨⟨"main", "origin", RefTarget.normal 0⟩, by decide, rfl, by decide⟩
  · exact ⟨⟨"main", "origin", RefTarget.normal 0⟩, by decide, rfl, by decide, by decide⟩

/-- Snapshot with five bookmarks, for the C4 witness. -/
def infoLim : JjInfo :=
  ⟨"yzxv1234", 4, [("main", 0), ("feat", 1), ("bar", 2), ("staging", 3), ("dev", 4)],
   false, false, false, false, true⟩

/-- Configuration with display limit 2, for the C4 witness. -/
def cfgLim : Config := ⟨0, 2, [], "", ⟨true, true, true, true, false, false⟩⟩

/-- C4 witness: limit 2 of 5 bookmarks shows the first two entries plus the
`…+3` marker. -/
theorem bookmark_display_limit_witness :
    bookmarkStrs infoLim cfgLim =
      (infoLim.bookmarks.take cfgLim.bookmarks_display_limit).map
        (renderBookmark cfgLim) ++
      ["…+" ++ toString (infoLim.bookmarks.length - cfgLim.bookmarks_display_limit)] ∧
    (bookmarkStrs infoLim cfgLim).length = cfgLim.bookmarks_display_limit + 1 :=
  (bookmark_display_limit_spec infoLim cfgLim).1 (by decide) (by decide)

/-- Configuration with strip prefix "dmmulroy/" and truncation width 10,
matching `test_jj_format_strip_bookmark_prefix_with_truncate`. -/
def cfgStripT : Config :=
  ⟨10, 0, ["dmmulroy/"], "", ⟨true, true, true, true, true, true⟩⟩

/-- Snapshot of `test_jj_format_strip_bookmark_prefix_with_truncate`. -/
def infoStripT : JjInfo :=
  ⟨"yzxv1234", 4, [("dmmulroy/very-long-feature-name", 0)],
   false, false, false, false, true⟩

/-- C5 counterexample: the claim predicts a cut to 10 characters plus an
ellipsis (visible length 11, `"very-long-…"`); the code — fixed by the
renderer test in src/output.rs — produces `"very-long…"` of visible length
exactly 10.  The last conjunct replicates the in-src test
`test_jj_format_strip_bookmark_prefix_with_truncate` verbatim. -/
theorem truncate_width_counterexample :
    cfgStripT.truncate (cfgStripT.stripPre "dmmulroy/very-long-feature-name") =
      "very-long…" ∧
    ("very-long…" : String).length ≠ cfgStripT.truncate_name + 1 ∧
    cfgStripT.truncate (cfgStripT.stripPre "dmmulroy/very-long-feature-name") ≠
      "very-long-…" ∧
    format_jj infoStripT cfgStripT =
      "on " ++ BLUE ++ RESET ++ BRIGHT_MAGENTA ++ "yzxv" ++ RESET ++
        BRIGHT_BLACK ++ "1234" ++ RESET ++ " " ++ GREEN ++ "(very-long…)" ++ RESET := by
  exact ⟨by decide, by decide, by decide, by decide⟩

/-- C5 witness: first-match stripping and the truncated visible length on
the test bookmark name. -/
theorem strip_then_truncate_witness :
    cfgStripT.stripPre "dmmulroy/very-long-feature-name" =
      String.mk (("dmmulroy/very-long-feature-name" : String).data.drop
        ("dmmulroy/" : String).data.length) ∧
    (cfgStripT.truncate (cfgStripT.stripPre "dmmulroy/very-long-feature-name")).length =
      cfgStripT.truncate_name := by
  have h := strip_then_truncate_spec cfgStripT "dmmulroy/very-long-feature-name" 0
  exact ⟨h.2.2.1 [] "dmmulroy/" [] rfl (by decide) (by decide),
         (h.2.2.2.2.2 (by decide) (by decide)).2⟩

/-- C7 witness: with bookmarks shown after a non-empty identity, exactly one
space is inserted before the bookmark segment. -/
theorem segment_spacing_witness :
    jjOut3 infoStripT cfgStripT = jjOut2 infoStripT cfgStripT ++
      (if !(jjOut2 infoStripT cfgStripT).isEmpty then " " else "") ++
      format_segment (bookmarksText infoStripT cfgStripT) GREEN
        cfgStripT.jj_display.show_color :=
  (segment_spacing_spec infoStripT cfgStripT).2.1 rfl (by decide)

/-- Snapshot and configurations for the C7 counterexample. -/
def infoC7 : JjInfo := ⟨"yzxv1234", 4, [], false, false, false, false, true⟩

/-- Configuration with symbol "J", no color, for the C7 counterexample. -/
def cfgC7 : Config := ⟨0, 0, [], "J", ⟨true, true, true, true, false, false⟩⟩

/-- Configuration showing only the bare prefix, for the C7 counterexample. -/
def cfgC7b : Config := ⟨0, 0, [], "", ⟨true, false, false, false, false, false⟩⟩

/-- C7 counterexample: the identity segment is NOT preceded by a space after
the prefix segment (`"on Jyzxv1234"`, not `"on J yzxv1234"`), and the output
can end with a trailing space (`"on "` with an empty symbol and all other
segments hidden). -/
theorem format_spacing_counterexample :
    format_jj infoC7 cfgC7 = "on Jyzxv1234" ∧
    format_jj infoC7 cfgC7 ≠ "on J yzxv1234" ∧
    format_jj infoC7 cfgC7b = "on " ∧
    ("on " : String).data.getLast? = some ' ' := by
  exact ⟨by decide, by decide, by decide, by decide⟩

/-- C8 witness: the byte-exact renderer agrees with the character-level one
on an ASCII identity. -/
theorem render_total_witness :
    format_jj_b infoStripT cfgStripT = some (format_jj infoStripT cfgStripT) :=
  render_total_spec infoStripT cfgStripT (Or.inl (by decide))

/-- Snapshot with a non-ASCII identity, for the C8 counterexample. -/
def infoC8 : JjInfo := ⟨"é1", 1, [], false, false, false, false, true⟩

/-- All-visible colored configuration, for the C8 counterexample. -/
def cfgC8 : Config := ⟨0, 0, [], "", ⟨true, true, true, true, true, true⟩⟩

/-- C8 counterexample: with prefix coloring enabled and the identity "é1"
(prefix length 1, inside the two-byte character), the byte slice of
src/output.rs does not fall on a character boundary — the Rust code panics,
modelled as `none`. -/
theorem render_nonascii_panic : format_jj_b infoC8 cfgC8 = none := by decide

/-- Repository with two ancestor bookmarks at equal distance 1, for the C9
counterexample. -/
def st9 : RepoState :=
  { store := fun c => if c == 0 then ⟨[1, 2], "work", "yzxv1234", false⟩
      else ⟨[], "base", "qqqqqqqq", false⟩,
    view := { localBookmarks := [("alpha", 1), ("beta", 2)],
              remoteBookmarks := [], tags := [] },
    wcId := 0, resolvedChange := none, uniquePrefixLen := some 4 }

/-- One hash-map iteration order of the ancestor marks of `st9`. -/
def iter9a : List (String × Nat) := [("alpha", 1), ("beta", 1)]

/-- The other hash-map iteration order of the ancestor marks of `st9`. -/
def iter9b : List (String × Nat) := [("beta", 1), ("alpha", 1)]

/-- Plain configuration without colors, for the C9 counterexample. -/
def cfg9 : Config := ⟨0, 0, [], "", ⟨true, true, true, true, false, false⟩⟩

theorem ancestorMarks_st9 : ancestorMarks st9 10 = iter9a := by decide

/-- C9 counterexample: both lists are valid iteration orders of the ancestor
bookmark hash map (Rust leaves the order unspecified), yet the rendered
prompt strings differ — two invocations of collect followed by format_jj can
yield different strings for the same repository state and configuration. -/
theorem render_order_counterexample :
    iter9a.Perm (ancestorMarks st9 10) ∧ iter9b.Perm (ancestorMarks st9 10) ∧
    format_jj (collect st9 8 10 iter9a) cfg9 ≠
      format_jj (collect st9 8 10 iter9b) cfg9 := by
  refine ⟨by rw [ancestorMarks_st9], by rw [ancestorMarks_st9]; exact List.Perm.swap _ _ _, by decide⟩

/-- C9 witness: for the two iteration orders of the sample repository the
bookmark lists are permutations of each other. -/
theorem collect_deterministic_witness :
    (collect st9 8 10 iter9a).bookmarks.Perm ((collect st9 8 10 iter9b).bookmarks) :=
  (collect_deterministic_up_to_ties st9 8 10 cfg9 iter9a iter9b
    (by rw [ancestorMarks_st9])
    (by rw [ancestorMarks_st9]; exact List.Perm.swap _ _ _)).1

end JJS
